import Mathlib

/-!
Verification of the geometry-to-graph extraction pipeline of the
raster-to-graph data-preparation repository.

The embedded sources are `src/utils/geometry.py` (`GeometryProcessor`) and
`src/data_utils/graph.py` (`GraphAnnotator`).  Machine floats are modelled
by exact rationals (all concrete inputs appearing in counterexamples are
small dyadic values on which double-precision arithmetic is exact), and the
`numpy.degrees(numpy.arctan2(dy, dx))` sector tests are translated to the
equivalent exact integer comparisons, so that every definition is
executable.
-/

namespace RasterToGraph

/-- A 2-D point with integer coordinates (an `(x, y)` tuple in the source). -/
abbrev Pt : Type := ℤ × ℤ

/-- `(-1, -1)`, the "no neighbour" sentinel used by `GraphAnnotator`. -/
def sentinel : Pt := (-1, -1)

/-! ## Direction classification (`GraphAnnotator.get_direction_index`)

The source computes `dx = point[0] - origin[0]`, `dy = origin[1] - point[1]`
(y-axis inverted for image coordinates), then
`angle = np.degrees(np.arctan2(dy, dx))` and tests the angle against the
sectors `[-45, 45]`, `(45, 135]`, `> 135 or < -135`, `[-135, -45)`.
For integer `dx`, `dy` those angle tests are equivalent to exact integer
comparisons:

* `-45 ≤ angle ≤ 45`   iff `0 ≤ dx ∧ -dx ≤ dy ∧ dy ≤ dx`
  (for `dx > 0` this is `|dy| ≤ dx`; for `dx = 0` it forces `dy = 0`,
  matching `arctan2 0 0 = 0`);
* `45 < angle ≤ 135`   iff `0 < dy ∧ -dy ≤ dx ∧ dx < dy`;
* `angle > 135 ∨ angle < -135` iff `dx < 0 ∧ |dy| < -dx`;
* `-135 ≤ angle < -45` iff `dy < 0 ∧ dy ≤ dx ∧ dx < -dy`.
-/

/-- `GraphAnnotator.get_direction_index`: branch structure and results mirror
the source (`3` = Right, `0` = Up, `1` = Left, `2` = Down); the trailing `-1`
mirrors the source's "should not reach here" default. -/
def get_direction_index (origin point : Pt) : ℤ :=
  let dx := point.1 - origin.1
  let dy := origin.2 - point.2
  if 0 ≤ dx ∧ -dx ≤ dy ∧ dy ≤ dx then 3
  else if 0 < dy ∧ -dy ≤ dx ∧ dx < dy then 0
  else if dx < 0 ∧ dy < -dx ∧ -dy < -dx then 1
  else if dy < 0 ∧ dy ≤ dx ∧ dx < -dy then 2
  else -1

/-- The vector the source classifies: `target - origin` with the y-axis
inverted (`(dx, dy)` of the source). -/
def dirVec (origin point : Pt) : Pt := (point.1 - origin.1, origin.2 - point.2)

/-- Spec-side sector predicate: the angle `atan2 d.2 d.1` of the nonzero
integer vector `d` lies in `[-45°, 45°]`. -/
def rightSector (d : Pt) : Prop := 0 < d.1 ∧ -d.1 ≤ d.2 ∧ d.2 ≤ d.1

/-- Spec-side sector predicate: the angle lies in `(45°, 135°]`. -/
def upSector (d : Pt) : Prop := 0 < d.2 ∧ -d.2 ≤ d.1 ∧ d.1 < d.2

/-- Spec-side sector predicate: the angle is `> 135°` or `< -135°`. -/
def leftSector (d : Pt) : Prop := d.1 < 0 ∧ d.2 < -d.1 ∧ -d.2 < -d.1

/-- Spec-side sector predicate: the angle lies in `[-135°, -45°)`. -/
def downSector (d : Pt) : Prop := d.2 < 0 ∧ d.2 ≤ d.1 ∧ d.1 < -d.2

/-- C1: for every non-degenerate segment and each endpoint ordering, the
direction classification returns exactly the index of the sector containing
the angle of the y-inverted difference vector (3 = Right on `[-45°, 45°]`,
0 = Up on `(45°, 135°]`, 1 = Left beyond `±135°`, 2 = Down on
`[-135°, -45°)`), and no non-degenerate input is left unclassified.
Determinism is inherent: the embedding is a pure function of the two
points. -/
theorem get_direction_index_classifies (origin point : Pt) (h : origin ≠ point) :
    (get_direction_index origin point = 3 ↔ rightSector (dirVec origin point)) ∧
    (get_direction_index origin point = 0 ↔ upSector (dirVec origin point)) ∧
    (get_direction_index origin point = 1 ↔ leftSector (dirVec origin point)) ∧
    (get_direction_index origin point = 2 ↔ downSector (dirVec origin point)) ∧
    (get_direction_index origin point = 0 ∨ get_direction_index origin point = 1 ∨
      get_direction_index origin point = 2 ∨ get_direction_index origin point = 3) := by
  obtain ⟨ox, oy⟩ := origin
  obtain ⟨px, py⟩ := point
  have hd : px - ox ≠ 0 ∨ oy - py ≠ 0 := by
    rcases Decidable.em (px - ox = 0) with h1 | h1
    · refine Or.inr fun h2 => h ?_
      have : ox = px := by omega
      have : oy = py := by omega
      simp_all
    · exact Or.inl h1
  simp only [get_direction_index, dirVec, rightSector, upSector, leftSector, downSector]
  split_ifs <;> simp_all <;> omega

/-- Witness for C1 at the concrete non-degenerate input `(0,0) → (2,1)`
(a Right-sector segment). -/
theorem get_direction_index_classifies_witness :
    (get_direction_index (0, 0) (2, 1) = 3 ↔ rightSector (dirVec (0, 0) (2, 1))) ∧
    (get_direction_index (0, 0) (2, 1) = 0 ↔ upSector (dirVec (0, 0) (2, 1))) ∧
    (get_direction_index (0, 0) (2, 1) = 1 ↔ leftSector (dirVec (0, 0) (2, 1))) ∧
    (get_direction_index (0, 0) (2, 1) = 2 ↔ downSector (dirVec (0, 0) (2, 1))) ∧
    (get_direction_index (0, 0) (2, 1) = 0 ∨ get_direction_index (0, 0) (2, 1) = 1 ∨
      get_direction_index (0, 0) (2, 1) = 2 ∨ get_direction_index (0, 0) (2, 1) = 3) :=
  get_direction_index_classifies (0, 0) (2, 1) (by decide)

/-- C5 counterexample: on the zero-length segment with both endpoints
`(0, 0)` the source raises no error at all: `np.arctan2 0 0 = 0`, the angle
`0` falls in the Right sector, and the function returns the direction index
`3`, contradicting the claimed `ZeroLengthSegment` failure. -/
theorem zero_length_segment_no_error : get_direction_index (0, 0) (0, 0) = 3 := by
  decide

/-- C5 amended: for every zero-length (degenerate) segment the direction
classification does not fail; it silently returns direction index 3 (Right),
because the computed angle `arctan2 0 0 = 0` falls in the Right branch. -/
theorem get_direction_index_zero_length (p : Pt) : get_direction_index p p = 3 := by
  obtain ⟨x, y⟩ := p
  simp [get_direction_index]

/-! ## Boundary resolver geometry (`GeometryProcessor`)

Floating-point coordinates are modelled by exact rationals.  `int()`
truncation toward zero is `truncQ`.  The shapely predicates used by
`split_line_by_candidate_points` are modelled exactly:
`line.distance(cp) < 1e-6` becomes `segDistSq < (1e-6)^2` (point-to-segment
distance compared via squares), and `line.contains(cp)` (point in the
interior of the segment) becomes `segDistSq = 0` with `cp` distinct from
both endpoints.  Python's stable `sorted` is `List.insertionSort` with a
non-strict key comparison, which is stable and produces the same output as
any stable sort.  The iteration order of the Python `set` of candidate
points is modelled by the order of the input list (it only influences
tie-breaks between candidates at the same sort key, which never occur in
the facts proved below), and `list(set(...))` deduplication is modelled by
`List.dedup`, which has the same membership semantics. -/

/-- A 2-D point with rational (modelling float) coordinates. -/
abbrev Q2 : Type := ℚ × ℚ

/-- Python `int()`: truncation toward zero. -/
def truncQ (q : ℚ) : ℤ := if q < 0 then ⌈q⌉ else ⌊q⌋

/-- `tuple(map(int, pt))`: truncate both coordinates. -/
def truncPt (p : Q2) : ℤ × ℤ := (truncQ p.1, truncQ p.2)

/-- Squared distance from point `p` to the segment `[a, b]` (the square of
shapely's `LineString([a, b]).distance(Point p)`). -/
def segDistSq (a b p : Q2) : ℚ :=
  let dx := b.1 - a.1
  let dy := b.2 - a.2
  let wx := p.1 - a.1
  let wy := p.2 - a.2
  let dot := wx * dx + wy * dy
  let len2 := dx * dx + dy * dy
  if dot ≤ 0 then wx * wx + wy * wy
  else if len2 ≤ dot then (p.1 - b.1) * (p.1 - b.1) + (p.2 - b.2) * (p.2 - b.2)
  else wx * wx + wy * wy - dot * dot / len2

/-- The candidate-inclusion test of `split_line_by_candidate_points`:
`line.distance(cp_point) < tolerance or line.contains(cp_point)` with the
default `tolerance = 1e-6` (compared via squared distances). -/
def candOnLine (p1 p2 : Q2) (cp : Q2) : Bool :=
  decide (segDistSq p1 p2 cp < 1 / 1000000000000) ||
    (decide (segDistSq p1 p2 cp = 0) && decide (cp ≠ p1) && decide (cp ≠ p2))

/-- `GeometryProcessor.split_line_by_candidate_points`: keep the two
endpoints plus every candidate on the line, then sort along the dominant
axis (`x` when the width strictly exceeds the height, else `y`). -/
def split_line_by_candidate_points (end1 end2 : ℤ × ℤ) (cands : List Q2) : List Q2 :=
  let p1 : Q2 := ((end1.1 : ℚ), (end1.2 : ℚ))
  let p2 : Q2 := ((end2.1 : ℚ), (end2.2 : ℚ))
  let included := [p1, p2] ++ cands.filter (candOnLine p1 p2)
  if |p2.2 - p1.2| < |p2.1 - p1.1| then
    List.insertionSort (fun u v : Q2 => u.1 ≤ v.1) included
  else
    List.insertionSort (fun u v : Q2 => u.2 ≤ v.2) included

/-- `GeometryProcessor.create_segments`: consecutive pairs of a point list.
(The source's `len == 2` special case appends the two sorted points as a
single segment, which coincides with taking consecutive pairs.) -/
def consecutivePairs (l : List Q2) : List (Q2 × Q2) := l.zip l.tail

/-- `GeometryProcessor.split_edges_into_segments` as a function of the state
it reads (`self.edges_list`, `self.intersection_points`): truncate the two
endpoints, split each edge at the candidate intersection points, then
truncate all resulting endpoints and deduplicate the **ordered** pairs
(the Python `set` of tuples). -/
def split_edges_into_segments (edges_list : List (Q2 × Q2)) (inter : List Q2) :
    List ((ℤ × ℤ) × (ℤ × ℤ)) :=
  let segments := edges_list.flatMap fun e =>
    consecutivePairs (split_line_by_candidate_points (truncPt e.1) (truncPt e.2) inter)
  (segments.map fun s => (truncPt s.1, truncPt s.2)).dedup

/-- C3 counterexample: for the two edges `(3,0)-(0,3)` and `(0,3)-(4,0)`
with intersection candidates `(5/2,1/2)`, `(1/2,5/2)` on the first edge and
`(3/4,39/16)`, `(11/4,15/16)` on the second, the output contains **both**
`((2,0),(0,2))` and `((0,2),(2,0))`: deduplication is by ordered pair, so
segments are not stored as unordered pairs. -/
theorem split_edges_both_orientations :
    ((2, 0), (0, 2)) ∈ split_edges_into_segments
      [(((3 : ℚ), (0 : ℚ)), ((0 : ℚ), (3 : ℚ))), (((0 : ℚ), (3 : ℚ)), ((4 : ℚ), (0 : ℚ)))]
      [(5/2, 1/2), (1/2, 5/2), (3/4, 39/16), (11/4, 15/16)] ∧
    ((0, 2), (2, 0)) ∈ split_edges_into_segments
      [(((3 : ℚ), (0 : ℚ)), ((0 : ℚ), (3 : ℚ))), (((0 : ℚ), (3 : ℚ)), ((4 : ℚ), (0 : ℚ)))]
      [(5/2, 1/2), (1/2, 5/2), (3/4, 39/16), (11/4, 15/16)] := by
  norm_num [split_edges_into_segments, split_line_by_candidate_points, candOnLine,
    consecutivePairs, segDistSq, truncPt, truncQ, List.insertionSort, List.orderedInsert,
    List.dedup, List.pwFilter]

/-- C3 amended: the final step truncates every endpoint coordinate to an
integer and deduplicates the **ordered** `(p1, p2)` pairs — no ordered pair
appears twice in the output — but the two orientations of one unordered
pair can both survive (see the counterexample), so segments are not stored
as unordered pairs. -/
theorem split_edges_into_segments_nodup (edges_list : List (Q2 × Q2)) (inter : List Q2) :
    (split_edges_into_segments edges_list inter).Nodup :=
  List.nodup_dedup _

/-- `GeometryProcessor.scale_segments`: every endpoint coordinate is mapped
by `new = int(old * scale + padding)`. -/
def scale_segments (segments : List ((ℤ × ℤ) × (ℤ × ℤ))) (scale_x scale_y : ℚ)
    (left_padding top_padding : ℤ) : List ((ℤ × ℤ) × (ℤ × ℤ)) :=
  segments.map fun s =>
    ((truncQ ((s.1.1 : ℚ) * scale_x + (left_padding : ℚ)),
      truncQ ((s.1.2 : ℚ) * scale_y + (top_padding : ℚ))),
     (truncQ ((s.2.1 : ℚ) * scale_x + (left_padding : ℚ)),
      truncQ ((s.2.2 : ℚ) * scale_y + (top_padding : ℚ))))

/-- Truncation toward zero moves a rational by strictly less than 1. -/
theorem abs_sub_truncQ_lt_one (q : ℚ) : |q - (truncQ q : ℚ)| < 1 := by
  unfold truncQ
  split_ifs with h
  · have h1 := Int.ceil_lt_add_one q
    have h2 := Int.le_ceil q
    rw [abs_sub_lt_iff]
    constructor <;> linarith
  · have h1 := Int.sub_one_lt_floor q
    have h2 := Int.floor_le q
    rw [abs_sub_lt_iff]
    constructor <;> linarith

/-- Truncating an integer perturbed by strictly less than 1 moves it by at
most 1. -/
theorem truncQ_int_add_small (x : ℤ) (f : ℚ) (hf : |f| < 1) :
    |truncQ ((x : ℚ) + f) - x| ≤ 1 := by
  rw [abs_lt] at hf
  unfold truncQ
  split_ifs with h
  · rw [add_comm, Int.ceil_add_int]
    have h1 : (0 : ℤ) ≤ ⌈f⌉ + 1 := by
      have := Int.lt_ceil.mpr (show (-1 : ℤ) < f by exact_mod_cast hf.1)
      omega
    have h2 : ⌈f⌉ ≤ 1 := Int.ceil_le.mpr (by push_cast; linarith)
    rw [abs_le]
    omega
  · rw [add_comm, Int.floor_add_int]
    have h1 : (-1 : ℤ) ≤ ⌊f⌋ := Int.le_floor.mpr (by push_cast; linarith)
    have h2 : ⌊f⌋ ≤ 0 := by
      have h3 : ⌊f⌋ < 1 := Int.floor_lt.mpr (by push_cast; linarith)
      omega
    rw [abs_le]
    omega

/-- One coordinate of the round trip: scaling by `s` with `|s| ≥ 1`, then by
`1/s`, reproduces the integer coordinate within ±1. -/
theorem truncQ_scale_roundtrip (x : ℤ) (s : ℚ) (hs : 1 ≤ |s|) :
    |truncQ ((truncQ ((x : ℚ) * s) : ℚ) * (1 / s)) - x| ≤ 1 := by
  have hs0 : s ≠ 0 := by
    intro h
    rw [h] at hs
    norm_num at hs
  set t : ℤ := truncQ ((x : ℚ) * s) with ht
  have hδ : |(x : ℚ) * s - (t : ℚ)| < 1 := abs_sub_truncQ_lt_one _
  have key : (t : ℚ) * (1 / s) = (x : ℚ) + ((t : ℚ) - (x : ℚ) * s) / s := by
    field_simp
  have hfrac : |((t : ℚ) - (x : ℚ) * s) / s| < 1 := by
    rw [abs_div]
    calc |(t : ℚ) - (x : ℚ) * s| / |s| ≤ |(t : ℚ) - (x : ℚ) * s| / 1 := by
          apply div_le_div_of_nonneg_left (abs_nonneg _) one_pos hs
        _ < 1 := by
          rw [div_one, abs_sub_comm]
          exact hδ
  rw [key]
  exact truncQ_int_add_small x _ hfrac

/-- C7 counterexample: with scale factor `sx = 1/10` (legal: nonzero) and
zero offsets, the segment `((19,0),(0,0))` scales to `((1,0),(0,0))`;
scaling back by `1/(1/10) = 10` yields `((10,0),(0,0))`, and `10` differs
from the original coordinate `19` by `9 > 1`. -/
theorem scale_segments_roundtrip_counterexample :
    scale_segments (scale_segments [((19, 0), (0, 0))] (1 / 10) 1 0 0)
        (1 / (1 / 10)) (1 / 1) 0 0 = [((10, 0), (0, 0))] ∧
      ¬(|(10 : ℤ) - 19| ≤ 1) := by
  constructor
  · norm_num [scale_segments, truncQ]
  · decide

/-- C7 amended: rescaling maps every coordinate by
`new = int(old * scale + offset)`, and for per-axis scale factors of
magnitude **at least 1** and zero offsets, scaling by `(sx, sy)` and then by
`(1/sx, 1/sy)` reproduces every original coordinate within ±1.  (For
`0 < |scale| < 1` the round trip can be off by more than 1; see the
counterexample.) -/
theorem scale_segments_roundtrip (segs : List ((ℤ × ℤ) × (ℤ × ℤ))) (sx sy : ℚ)
    (hx : 1 ≤ |sx|) (hy : 1 ≤ |sy|) :
    List.Forall₂
      (fun s t : (ℤ × ℤ) × (ℤ × ℤ) =>
        |t.1.1 - s.1.1| ≤ 1 ∧ |t.1.2 - s.1.2| ≤ 1 ∧
          |t.2.1 - s.2.1| ≤ 1 ∧ |t.2.2 - s.2.2| ≤ 1)
      segs (scale_segments (scale_segments segs sx sy 0 0) (1 / sx) (1 / sy) 0 0) := by
  unfold scale_segments
  rw [List.map_map]
  rw [List.forall₂_map_right_iff]
  rw [List.forall₂_same]
  intro s _
  refine ⟨?_, ?_, ?_, ?_⟩ <;>
    simpa using truncQ_scale_roundtrip _ _ (by assumption)

/-- Witness for C7 amended at segment `((3,4),(5,6))` with scales
`sx = 3/2`, `sy = 2`. -/
theorem scale_segments_roundtrip_witness :
    List.Forall₂
      (fun s t : (ℤ × ℤ) × (ℤ × ℤ) =>
        |t.1.1 - s.1.1| ≤ 1 ∧ |t.1.2 - s.1.2| ≤ 1 ∧
          |t.2.1 - s.2.1| ≤ 1 ∧ |t.2.2 - s.2.2| ≤ 1)
      [((3, 4), (5, 6))]
      (scale_segments (scale_segments [((3, 4), (5, 6))] (3 / 2) 2 0 0)
        (1 / (3 / 2)) (1 / 2) 0 0) :=
  scale_segments_roundtrip [((3, 4), (5, 6))] (3 / 2) 2
    (by rw [abs_of_pos (by norm_num : (0 : ℚ) < 3 / 2)]; norm_num)
    (by rw [abs_of_pos (by norm_num : (0 : ℚ) < 2)]; norm_num)

/-! ## Annotation-file reading (`GeometryProcessor._read_coordinates`,
`GeometryProcessor._create_polygons`)

Lines are modelled as already-tokenized lists of integers (the claims under
scrutiny concern token counts, not numeral parsing).  A raised Python
exception is modelled by `none`: in `_read_coordinates` the comprehension
`[(int(parts[i]), int(parts[i+1])) for i in range(0, len(parts), 2)]`
raises `IndexError` at `parts[i+1]` exactly when the kept token count is
odd, the `except` block logs and re-raises it; in `_create_polygons` the
shapely `Polygon` constructor raises when given one or two coordinates
(nonempty lists only — empty ones are filtered by `if coords`). -/

/-- The pairing comprehension of `_read_coordinates`; `none` models the
`IndexError` on an odd-length token list. -/
def pairTokens : List ℤ → Option (List (ℤ × ℤ))
  | [] => some []
  | [_] => none
  | x :: y :: rest => (pairTokens rest).map fun l => (x, y) :: l

/-- Total pairing of an even-length token list (used to state results). -/
def pairTokensTotal : List ℤ → List (ℤ × ℤ)
  | [] => []
  | [_] => []
  | x :: y :: rest => (x, y) :: pairTokensTotal rest

/-- `GeometryProcessor._read_coordinates`: lines with fewer than 4 tokens
are skipped (`if not parts or len(parts) < 4: continue`); otherwise the
last two tokens are dropped (`parts[:-2]`) and the rest paired in input
order; an odd pair count raises, aborting the whole read. -/
def read_coordinates : List (List ℤ) → Option (List (List (ℤ × ℤ)))
  | [] => some []
  | parts :: rest =>
    if parts.length < 4 then read_coordinates rest
    else
      match pairTokens (parts.take (parts.length - 2)) with
      | none => none
      | some cs => (read_coordinates rest).map fun l => cs :: l

/-- `GeometryProcessor._create_polygons`:
`[Polygon(coords) for coords in self.coordinates if coords]` — one polygon
per nonempty coordinate list, raising (`none`) if any nonempty list has
fewer than 3 points; there is **no** emptiness check on the result. -/
def create_polygons (coords : List (List (ℤ × ℤ))) : Option (List (List (ℤ × ℤ))) :=
  if coords.all fun c => c.isEmpty || decide (3 ≤ c.length) then
    some (coords.filter fun c => !c.isEmpty)
  else none

theorem pairTokens_eq_none : ∀ l : List ℤ, pairTokens l = none ↔ l.length % 2 = 1
  | [] => by simp [pairTokens]
  | [x] => by simp [pairTokens]
  | x :: y :: rest => by
    have ih := pairTokens_eq_none rest
    simp only [pairTokens, Option.map_eq_none', List.length_cons]
    rw [ih]
    omega

theorem pairTokens_eq_some : ∀ l : List ℤ, l.length % 2 = 0 →
    pairTokens l = some (pairTokensTotal l)
  | [], _ => by simp [pairTokens, pairTokensTotal]
  | [x], h => by simp at h
  | x :: y :: rest, h => by
    have hr : rest.length % 2 = 0 := by
      simp only [List.length_cons] at h
      omega
    have ih := pairTokens_eq_some rest hr
    simp [pairTokens, pairTokensTotal, ih]

/-- C6 counterexample: the single line `"1 2 3"` yields one coordinate
token after dropping the two trailing metadata tokens — an odd count — yet
the reader silently **skips** the line (its token count is below 4) instead
of failing with `MalformedRecord`, and an input producing zero polygons
succeeds with an empty list instead of failing with `EmptyInput`. -/
theorem read_coordinates_counterexample :
    read_coordinates [[1, 2, 3]] = some [] ∧ create_polygons [] = some [] := by
  constructor
  · decide
  · decide

/-- C6 amended: lines with fewer than 4 tokens are silently skipped;
reading fails (with the index error propagated to the caller) exactly when
some line with at least 4 tokens has an odd token count after dropping the
final two; on success each kept line contributes the tokens before the
final two, paired as `(x, y)` in input order.  No `EmptyInput` failure
exists: an input producing no polygons yields an empty polygon list. -/
theorem read_coordinates_none_iff (lines : List (List ℤ)) :
    read_coordinates lines = none ↔
      ∃ parts ∈ lines, 4 ≤ parts.length ∧
        (parts.take (parts.length - 2)).length % 2 = 1 := by
  induction lines with
  | nil => simp [read_coordinates]
  | cons parts rest ih =>
    simp only [read_coordinates]
    split_ifs with hlen
    · rw [ih]
      constructor
      · rintro ⟨p, hp, h4, hodd⟩
        exact ⟨p, List.mem_cons_of_mem _ hp, h4, hodd⟩
      · rintro ⟨p, hp, h4, hodd⟩
        rcases List.mem_cons.mp hp with rfl | hp'
        · omega
        · exact ⟨p, hp', h4, hodd⟩
    · rcases hpt : pairTokens (parts.take (parts.length - 2)) with _ | cs
      · simp only [true_iff]
        exact ⟨parts, List.mem_cons_self _ _, by omega,
          (pairTokens_eq_none (parts.take (parts.length - 2))).mp hpt⟩
      · simp only [Option.map_eq_none', ih]
        constructor
        · rintro ⟨p, hp, h4, hodd⟩
          exact ⟨p, List.mem_cons_of_mem _ hp, h4, hodd⟩
        · rintro ⟨p, hp, h4, hodd⟩
          rcases List.mem_cons.mp hp with rfl | hp'
          · exfalso
            rw [← pairTokens_eq_none] at hodd
            rw [hodd] at hpt
            cases hpt
          · exact ⟨p, hp', h4, hodd⟩

theorem read_coordinates_some_eq (lines : List (List ℤ)) :
    ∀ rs, read_coordinates lines = some rs →
      rs = (lines.filter fun p => decide (4 ≤ p.length)).map
        fun p => pairTokensTotal (p.take (p.length - 2)) := by
  induction lines with
  | nil =>
    intro rs h
    simp only [read_coordinates, Option.some.injEq] at h
    simp [← h]
  | cons parts rest ih =>
    intro rs h
    simp only [read_coordinates] at h
    split_ifs at h with hlen
    · have hdec : (decide (4 ≤ parts.length)) = false := by
        simp only [decide_eq_false_iff_not]
        omega
      rw [ih rs h]
      simp [List.filter_cons, hdec]
    · rcases hpt : pairTokens (parts.take (parts.length - 2)) with _ | cs
      · rw [hpt] at h
        cases h
      · rw [hpt] at h
        rcases hrest : read_coordinates rest with _ | rs'
        · rw [hrest] at h
          cases h
        · rw [hrest] at h
          simp only [Option.map_some', Option.some.injEq] at h
          have heven : (parts.take (parts.length - 2)).length % 2 = 0 := by
            rcases Nat.mod_two_eq_zero_or_one (parts.take (parts.length - 2)).length with
              h0 | h1
            · exact h0
            · rw [← pairTokens_eq_none] at h1
              rw [h1] at hpt
              cases hpt
          have hcs : cs = pairTokensTotal (parts.take (parts.length - 2)) := by
            rw [pairTokens_eq_some _ heven] at hpt
            exact (Option.some_inj.mp hpt).symm
          have hdec : (decide (4 ≤ parts.length)) = true := by
            simp only [decide_eq_true_eq]
            omega
          rw [← h, ih rs' hrest, hcs]
          simp [List.filter_cons, hdec]

/-- C6 amended: lines with fewer than 4 tokens are silently skipped;
reading fails (with the index error propagated to the caller) exactly when
some line with at least 4 tokens has an odd token count after dropping the
final two; on success each kept line contributes the tokens before the
final two, paired as `(x, y)` in input order.  No `EmptyInput` failure
exists: an input producing no polygons yields an empty polygon list. -/
theorem read_coordinates_spec (lines : List (List ℤ)) :
    (read_coordinates lines = none ↔
      ∃ parts ∈ lines, 4 ≤ parts.length ∧
        (parts.take (parts.length - 2)).length % 2 = 1) ∧
    (∀ rs, read_coordinates lines = some rs →
      rs = (lines.filter fun p => decide (4 ≤ p.length)).map
        fun p => pairTokensTotal (p.take (p.length - 2))) ∧
    create_polygons [] = some [] :=
  ⟨read_coordinates_none_iff lines, read_coordinates_some_eq lines, by decide⟩

/-- Witness for C6 amended at the single well-formed line `"1 2 3 4"`
(tokens `1 2` kept and paired, `3 4` dropped as metadata). -/
theorem read_coordinates_spec_witness :
    [[((1 : ℤ), (2 : ℤ))]] =
      ([[1, 2, 3, 4]].filter fun p : List ℤ => decide (4 ≤ p.length)).map
        fun p => pairTokensTotal (p.take (p.length - 2)) :=
  (read_coordinates_spec [[1, 2, 3, 4]]).2.1 [[(1, 2)]] (by decide)

/-! ## Graph annotator (`GraphAnnotator.build_graphs`)

Python dicts (insertion-ordered, identity by value) are modelled as
association lists: a new key is appended at the end, an update rewrites the
first (unique) matching entry in place, preserving insertion order —
exactly the observable behaviour of a Python `dict`.  The directional slot
assignment `lst[idx] = v` is `List.set` at `idx.toNat`: by the totality
theorem for `get_direction_index` the index is always in `{0, 1, 2, 3}`,
where the two semantics agree. -/

/-- First-match association-list lookup (`d[k]` / `k in d`). -/
def alookup {κ α : Type} [DecidableEq κ] : List (κ × α) → κ → Option α
  | [], _ => none
  | (k', v) :: t, k => if k' = k then some v else alookup t k

/-- In-place update of the first matching entry (`d[k] = f d[k]`). -/
def aupdate {κ α : Type} [DecidableEq κ] : List (κ × α) → κ → (α → α) → List (κ × α)
  | [], _, _ => []
  | (k', v) :: t, k, f => if k' = k then (k', f v) :: t else (k', v) :: aupdate t k f

/-- `if k not in d: d[k] = dflt` — append a fresh key at the end. -/
def ensureKey {κ α : Type} [DecidableEq κ] (l : List (κ × α)) (k : κ) (dflt : α) :
    List (κ × α) :=
  match alookup l k with
  | some _ => l
  | none => l ++ [(k, dflt)]

/-- The keys of an association list, in insertion order. -/
def keysOf {α : Type} (g : List (Pt × α)) : List Pt := g.map Prod.fst

/-- The two dict representations built by `GraphAnnotator.build_graphs`
before the `'quatree'` entry is added: neighbours as coordinates, and
neighbour connectivity as a 4-character binary string (a `'1'` character is
`true`). -/
structure PreGraphs where
  coord : List (Pt × List Pt)
  code : List (Pt × List Bool)

/-- `GraphAnnotator.init_neighbors_as_coordinates`: `[(-1, -1)] * 4`. -/
def init_neighbors_as_coordinates : List Pt := [sentinel, sentinel, sentinel, sentinel]

/-- `GraphAnnotator.init_neighbors_as_code`: `"0000"`. -/
def init_neighbors_as_code : List Bool := [false, false, false, false]

/-- The body of the `for pt1, pt2 in self.segments` loop of
`build_graphs`: ensure both endpoints exist in both dicts, classify both
directions, then write the directional slots (last write wins). -/
def process_segment (g : PreGraphs) (s : Pt × Pt) : PreGraphs :=
  let coord1 :=
    ensureKey (ensureKey g.coord s.1 init_neighbors_as_coordinates) s.2
      init_neighbors_as_coordinates
  let code1 := ensureKey (ensureKey g.code s.1 init_neighbors_as_code) s.2
    init_neighbors_as_code
  let d12 := (get_direction_index s.1 s.2).toNat
  let d21 := (get_direction_index s.2 s.1).toNat
  let coord2 := aupdate coord1 s.1 fun ns => ns.set d12 s.2
  let coord3 := aupdate coord2 s.2 fun ns => ns.set d21 s.1
  let code2 := aupdate code1 s.1 fun c => c.set d12 true
  let code3 := aupdate code2 s.2 fun c => c.set d21 true
  ⟨coord3, code3⟩

/-- The segment loop of `build_graphs`. -/
def build_pre (segs : List (Pt × Pt)) : PreGraphs := segs.foldl process_segment ⟨[], []⟩

/-- `valid_points = [pt for pt in self.coordinate_graph.keys() if pt != 'quatree']`:
at this program point the dict holds no `'quatree'` entry yet (it is added
only after the BFS), so the filter is the identity on the vertex keys. -/
def valid_points (g : PreGraphs) : List Pt := keysOf g.coord

/-- Squared Euclidean distance to `(0, 0)`; `np.hypot p.1 p.2` is its
square root, and `min` by `hypot` equals `min` by the square (strict
monotonicity of the square root), proved below against `eudist`. -/
def distSq (p : Pt) : ℤ := p.1 * p.1 + p.2 * p.2

/-- `min(valid_points, key=lambda p: np.hypot(p[0], p[1]))`: Python `min`
returns the first element attaining the minimum, i.e. a left fold keeping
the incumbent unless a strictly smaller key appears. -/
def pickClosest (v : Pt) (vs : List Pt) : Pt :=
  vs.foldl (fun best p => if distSq p < distSq best then p else best) v

/-- The canonical origin of the quatree BFS; `none` models the
`ValueError` that Python's `min` raises on an empty sequence. -/
def originOf (segs : List (Pt × Pt)) : Option Pt :=
  match valid_points (build_pre segs) with
  | [] => none
  | v :: vs => some (pickClosest v vs)

/-- The quatree level map: `{level: [points]}`, insertion-ordered. -/
abbrev Qt : Type := List (ℕ × List Pt)

/-- `quatree.setdefault(level, []).append(point)`. -/
def qtAdd (qt : Qt) (level : ℕ) (p : Pt) : Qt :=
  match alookup qt level with
  | some _ => aupdate qt level fun ps => ps ++ [p]
  | none => qt ++ [(level, [p])]

/-- The list of vertices recorded at a level (empty if the level is absent). -/
def qtGet (qt : Qt) (l : ℕ) : List Pt := (alookup qt l).getD []

/-- `self.coordinate_graph[point]` as a total accessor (every point the BFS
ever dereferences is a key; see the invariants below). -/
def adjOf (g : PreGraphs) (p : Pt) : List Pt := (alookup g.coord p).getD []

/-- The `while queue:` BFS of `build_graphs`, fuel-indexed.  `none` means
the fuel ran out, which never happens for the fuel bound used by
`build_graphs` (proved below). -/
def bfs (adj : Pt → List Pt) : ℕ → List (Pt × ℕ) → List Pt → Qt → Option Qt
  | _, [], _, qt => some qt
  | 0, _ :: _, _, _ => none
  | fuel + 1, (p, l) :: rest, vis, qt =>
    if p ∈ vis then bfs adj fuel rest vis qt
    else
      bfs adj fuel
        (rest ++ ((adj p).filter fun n =>
          decide (n ≠ sentinel) && decide (n ∉ vis ++ [p])).map fun n => (n, l + 1))
        (vis ++ [p]) (qtAdd qt l p)

/-- Fuel bound for the BFS: one initial queue entry plus at most four
enqueues per fresh visit of one of the (at most `|keys|`) vertices. -/
def bfsFuel (g : PreGraphs) : ℕ := 1 + 5 * (keysOf g.coord).length

/-- Keys of the final `coordinate_graph`, which mixes vertex keys with the
reserved string key `'quatree'`. -/
inductive PKey : Type where
  | pt (p : Pt)
  | quatree
deriving DecidableEq

/-- Values of the final `coordinate_graph`: 4-slot neighbour lists for
vertex keys, and the one-element list `[quatree]` for the reserved key. -/
inductive CVal : Type where
  | nbrs (ns : List Pt)
  | qt (q : List Qt)
deriving DecidableEq

/-- `GraphAnnotator.build_graphs`: build both graphs from the segments,
pick the origin (`ValueError`, i.e. `none`, on an empty vertex set), run
the BFS, then store the quatree in the coordinate graph under the reserved
key: `self.coordinate_graph['quatree'] = [quatree]`.  Returns
`(coordinate_graph, code_graph)` together with the quatree itself. -/
def build_graphs (segs : List (Pt × Pt)) :
    Option (List (PKey × CVal) × List (PKey × List Bool) × Qt) :=
  let g := build_pre segs
  match valid_points g with
  | [] => none
  | v :: vs =>
    match bfs (adjOf g) (bfsFuel g) [(pickClosest v vs, 0)] [] [] with
    | none => none
    | some quatree =>
      some ((g.coord.map fun e => (PKey.pt e.1, CVal.nbrs e.2)) ++
          [(PKey.quatree, CVal.qt [quatree])],
        g.code.map fun e => (PKey.pt e.1, e.2), quatree)

/-! ## Annotation generation (`GraphAnnotator.create_annotations`,
`GraphAnnotator.get_edge_code`, `GraphAnnotator.create_structure_bbox`)

The only nondeterminism of the source is `random.choices(vocabulary, k=4)`;
it is modelled by an injected pick stream `picks : ℕ → Fin 8` selecting
indices into the fixed vocabulary, consumed four at a time, one batch per
emitted record — the draws always return elements of the vocabulary list,
as `random.choices` does. -/

/-- The fixed `edges_rev` table, written out verbatim (connectivity string
over slot order Up, Left, Down, Right, with `'1'` as `true`); `none` models
the `ValueError` raised for a string absent from the table. -/
def edges_rev : List Bool → Option ℕ
  | [false, false, false, false] => some 0
  | [false, false, false, true] => some 1
  | [false, false, true, false] => some 2
  | [false, false, true, true] => some 3
  | [false, true, false, false] => some 4
  | [false, true, true, false] => some 5
  | [false, true, true, true] => some 6
  | [true, false, false, false] => some 7
  | [true, false, false, true] => some 8
  | [true, false, true, true] => some 9
  | [true, true, false, false] => some 10
  | [true, true, false, true] => some 11
  | [true, true, true, false] => some 12
  | [true, true, true, true] => some 13
  | [false, true, false, true] => some 14
  | [true, false, true, false] => some 15
  | _ => none

/-- `GraphAnnotator.get_edge_code`: table lookup, `ValueError` on a miss. -/
def get_edge_code (edges_class : List Bool) : Option ℕ := edges_rev edges_class

/-- The fixed 8-word semantic vocabulary of `create_annotations`. -/
def semanticVocabulary : List String :=
  ["outside", "kitchen", "bathroom", "bedroom", "closet", "corridor", "restroom", "balcony"]

/-- One random draw: the vocabulary entry selected by the pick stream. -/
def drawLabel (picks : ℕ → Fin 8) (k : ℕ) : String :=
  semanticVocabulary.get ⟨(picks k).1, (picks k).2⟩

/-- One annotation dictionary. -/
structure Annotation where
  image_id : ℤ
  category_id : ℤ
  id : ℤ
  point : Pt
  edge_code : ℕ
  semantic : List String
deriving DecidableEq

/-- `GraphAnnotator.create_annotations`: iterate the `code_graph` items in
insertion order, skip the reserved `'quatree'` key, and emit one record per
vertex with the running `annot_id` (incremented after each record) and four
vocabulary draws; returns the records and the final counter.  `none`
models the `ValueError` that `get_edge_code` raises on a table miss. -/
def create_annotations (image_id category_id : ℤ) (picks : ℕ → Fin 8) :
    List (PKey × List Bool) → ℤ → ℕ → Option (List Annotation × ℤ)
  | [], annot_id, _ => some ([], annot_id)
  | (PKey.quatree, _) :: rest, annot_id, k =>
    create_annotations image_id category_id picks rest annot_id k
  | (PKey.pt p, value) :: rest, annot_id, k =>
    match get_edge_code value with
    | none => none
    | some ec =>
      match create_annotations image_id category_id picks rest (annot_id + 1) (k + 4) with
      | none => none
      | some (recs, final) =>
        some (⟨image_id, category_id, annot_id, p, ec,
          [drawLabel picks k, drawLabel picks (k + 1),
            drawLabel picks (k + 2), drawLabel picks (k + 3)]⟩ :: recs, final)

/-- `GraphAnnotator.create_structure_bbox` over the vertex keys of
`code_graph` (which are coordinate pairs): min/max of all x and y values;
`none` models the `ValueError` of `min`/`max` on an empty sequence. -/
def create_structure_bbox (pts : List Pt) : Option (ℤ × ℤ × ℤ × ℤ) :=
  match pts with
  | [] => none
  | p :: rest =>
    some (rest.foldl (fun m q => min m q.1) p.1, rest.foldl (fun m q => min m q.2) p.2,
      rest.foldl (fun m q => max m q.1) p.1, rest.foldl (fun m q => max m q.2) p.2)

/-- The coordinate pairs among the keys of the final `code_graph`. -/
def codeGraphPoints (code_graph : List (PKey × List Bool)) : List Pt :=
  code_graph.filterMap fun e =>
    match e.1 with
    | PKey.pt p => some p
    | PKey.quatree => none

/-! ## Association-list lemmas -/

theorem alookup_append {κ α : Type} [DecidableEq κ] (l1 l2 : List (κ × α)) (k : κ) :
    alookup (l1 ++ l2) k =
      match alookup l1 k with
      | some v => some v
      | none => alookup l2 k := by
  induction l1 with
  | nil => simp [alookup]
  | cons e t ih =>
    obtain ⟨k', v⟩ := e
    by_cases h : k' = k <;> simp [alookup, h, ih]

theorem alookup_ensureKey {κ α : Type} [DecidableEq κ] (l : List (κ × α)) (k : κ) (d : α)
    (k' : κ) :
    alookup (ensureKey l k d) k' =
      if k' = k then some ((alookup l k).getD d) else alookup l k' := by
  unfold ensureKey
  rcases h : alookup l k with _ | v
  · rw [alookup_append]
    by_cases hk : k' = k
    · subst hk
      simp [h, alookup]
    · simp only [hk, if_false]
      rcases h2 : alookup l k' with _ | w
      · simp [alookup, Ne.symm hk]
      · rfl
  · by_cases hk : k' = k
    · subst hk
      simp [h]
    · simp [hk]

theorem alookup_aupdate {κ α : Type} [DecidableEq κ] (l : List (κ × α)) (k : κ) (f : α → α)
    (k' : κ) :
    alookup (aupdate l k f) k' =
      if k' = k then (alookup l k).map f else alookup l k' := by
  induction l with
  | nil => simp [alookup, aupdate]
  | cons e t ih =>
    obtain ⟨k0, v⟩ := e
    by_cases h0 : k0 = k
    · subst h0
      by_cases hk : k' = k0
      · subst hk
        simp [aupdate, alookup]
      · simp [aupdate, alookup, Ne.symm hk, hk]
    · by_cases hk : k' = k0
      · subst hk
        simp [aupdate, alookup, h0, Ne.symm h0]
      · simp [aupdate, alookup, h0, hk, Ne.symm hk, ih]

theorem keysOf_aupdate {α : Type} (l : List (Pt × α)) (k : Pt) (f : α → α) :
    keysOf (aupdate l k f) = keysOf l := by
  induction l with
  | nil => rfl
  | cons e t ih =>
    obtain ⟨k0, v⟩ := e
    by_cases h : k0 = k
    · simp [aupdate, keysOf, h]
    · simp only [aupdate, if_neg h, keysOf, List.map_cons, List.cons.injEq, true_and]
      simpa [keysOf] using ih

theorem keysOf_ensureKey {α : Type} (l : List (Pt × α)) (k : Pt) (d : α) :
    keysOf (ensureKey l k d) = keysOf l ∨ keysOf (ensureKey l k d) = keysOf l ++ [k] := by
  unfold ensureKey
  rcases alookup l k with _ | v
  · right
    simp [keysOf]
  · left
    rfl

theorem alookup_isSome_of_mem_keys {α : Type} (l : List (Pt × α)) (k : Pt) :
    k ∈ keysOf l ↔ (alookup l k).isSome := by
  induction l with
  | nil => simp [keysOf, alookup]
  | cons e t ih =>
    obtain ⟨k0, v⟩ := e
    by_cases h : k0 = k
    · subst h
      simp [keysOf, alookup]
    · have hne : k ≠ k0 := fun hc => h hc.symm
      simp only [keysOf, List.map_cons, List.mem_cons] at ih ⊢
      simp [alookup, h, hne, ih]

theorem alookup_mem {α : Type} (l : List (Pt × α)) (k : Pt) (v : α)
    (h : alookup l k = some v) : (k, v) ∈ l := by
  induction l with
  | nil => simp [alookup] at h
  | cons e t ih =>
    obtain ⟨k0, w⟩ := e
    by_cases h0 : k0 = k
    · subst h0
      simp [alookup] at h
      subst h
      exact List.mem_cons_self _ _
    · simp only [alookup, if_neg h0] at h
      exact List.mem_cons_of_mem _ (ih h)

/-! ## Direction-index totality and the adjacency/code consistency invariant -/

/-- The direction classification always returns an index in `{0, 1, 2, 3}`
(the `-1` default of the source is genuinely unreachable, even for
degenerate segments). -/
theorem get_direction_index_total (o p : Pt) :
    get_direction_index o p = 0 ∨ get_direction_index o p = 1 ∨
      get_direction_index o p = 2 ∨ get_direction_index o p = 3 := by
  obtain ⟨ox, oy⟩ := o
  obtain ⟨px, py⟩ := p
  simp only [get_direction_index]
  split_ifs <;> omega

theorem get_direction_index_toNat_lt (o p : Pt) : (get_direction_index o p).toNat < 4 := by
  rcases get_direction_index_total o p with h | h | h | h <;> rw [h] <;> decide

/-- The per-vertex relation between a `coordinate_graph` entry and the
`code_graph` entry for the same key: equal keys, both length 4, and
character `i` is `'1'` iff slot `i` is not the sentinel. -/
def entryRel (ce : Pt × List Pt) (ke : Pt × List Bool) : Prop :=
  ce.1 = ke.1 ∧ ce.2.length = 4 ∧ ke.2.length = 4 ∧
    ∀ i, i < 4 → (ke.2.getD i false = true ↔ ce.2.getD i sentinel ≠ sentinel)

/-- The two graphs stay aligned entry by entry. -/
def GraphsConsistent (g : PreGraphs) : Prop := List.Forall₂ entryRel g.coord g.code

theorem exists_four {α : Type} (l : List α) (h : l.length = 4) :
    ∃ a b c d, l = [a, b, c, d] := by
  match l, h with
  | [a, b, c, d], _ => exact ⟨a, b, c, d, rfl⟩

theorem entryRel_set (p : Pt) (ns : List Pt) (cd : List Bool)
    (hrel : entryRel (p, ns) (p, cd)) (d : ℕ) (hd : d < 4) (q : Pt) (hq : q ≠ sentinel) :
    entryRel (p, ns.set d q) (p, cd.set d true) := by
  obtain ⟨-, hln, hlc, hiff⟩ := hrel
  obtain ⟨n0, n1, n2, n3, rfl⟩ := exists_four ns hln
  obtain ⟨b0, b1, b2, b3, rfl⟩ := exists_four cd hlc
  have h0 := hiff 0 (by omega)
  have h1 := hiff 1 (by omega)
  have h2 := hiff 2 (by omega)
  have h3 := hiff 3 (by omega)
  simp only [List.getD, List.get?, Option.getD] at h0 h1 h2 h3
  interval_cases d <;>
    refine ⟨rfl, rfl, rfl, ?_⟩ <;>
    · intro i hi
      interval_cases i <;>
        simp_all [List.set, List.getD]

theorem forall2_keys {c : List (Pt × List Pt)} {k : List (Pt × List Bool)}
    (h : List.Forall₂ entryRel c k) : keysOf c = keysOf k := by
  induction h with
  | nil => rfl
  | cons hr _ ih => simp [keysOf] at ih ⊢; exact ⟨hr.1, ih⟩

theorem forall2_alookup {c : List (Pt × List Pt)} {k : List (Pt × List Bool)}
    (h : List.Forall₂ entryRel c k) (p : Pt) :
    (match alookup c p, alookup k p with
      | some ns, some cd => entryRel (p, ns) (p, cd)
      | none, none => True
      | _, _ => False) := by
  induction h with
  | nil => simp [alookup]
  | cons hr ht ih =>
    rename_i a b t1 t2
    obtain ⟨ka, va⟩ := a
    obtain ⟨kb, vb⟩ := b
    have hk : ka = kb := hr.1
    subst hk
    by_cases hp : ka = p
    · subst hp
      simpa [alookup] using hr
    · simpa [alookup, hp] using ih

theorem forall2_aupdate {c : List (Pt × List Pt)} {k : List (Pt × List Bool)}
    (h : List.Forall₂ entryRel c k) (p : Pt) (f : List Pt → List Pt)
    (g : List Bool → List Bool)
    (hf : ∀ ns cd, entryRel (p, ns) (p, cd) → entryRel (p, f ns) (p, g cd)) :
    List.Forall₂ entryRel (aupdate c p f) (aupdate k p g) := by
  induction h with
  | nil => exact List.Forall₂.nil
  | cons hr ht ih =>
    rename_i a b t1 t2
    obtain ⟨ka, va⟩ := a
    obtain ⟨kb, vb⟩ := b
    have hk : ka = kb := hr.1
    subst hk
    by_cases hp : ka = p
    · subst hp
      simp only [aupdate, if_pos rfl]
      exact List.Forall₂.cons (hf _ _ hr) ht
    · simp only [aupdate, if_neg hp]
      exact List.Forall₂.cons hr ih

theorem forall2_append {α β : Type} {R : α → β → Prop} {l1 l1' : List α} {l2 l2' : List β}
    (h : List.Forall₂ R l1 l2) (h' : List.Forall₂ R l1' l2') :
    List.Forall₂ R (l1 ++ l1') (l2 ++ l2') := by
  induction h with
  | nil => exact h'
  | cons hr ht ih => exact List.Forall₂.cons hr ih

theorem entryRel_init (p : Pt) :
    entryRel (p, init_neighbors_as_coordinates) (p, init_neighbors_as_code) := by
  refine ⟨rfl, rfl, rfl, ?_⟩
  intro i hi
  interval_cases i <;>
    simp [init_neighbors_as_coordinates, init_neighbors_as_code, List.getD]

theorem forall2_ensureKey {c : List (Pt × List Pt)} {k : List (Pt × List Bool)}
    (h : List.Forall₂ entryRel c k) (p : Pt) :
    List.Forall₂ entryRel (ensureKey c p init_neighbors_as_coordinates)
      (ensureKey k p init_neighbors_as_code) := by
  have hmatch := forall2_alookup h p
  unfold ensureKey
  rcases h1 : alookup c p with _ | ns <;> rcases h2 : alookup k p with _ | cd <;>
    rw [h1, h2] at hmatch
  · exact forall2_append h (List.Forall₂.cons (entryRel_init p) List.Forall₂.nil)
  · exact hmatch.elim
  · exact hmatch.elim
  · exact h

theorem graphsConsistent_process (g : PreGraphs) (s : Pt × Pt)
    (h : GraphsConsistent g) (h1 : s.1 ≠ sentinel) (h2 : s.2 ≠ sentinel) :
    GraphsConsistent (process_segment g s) := by
  unfold process_segment GraphsConsistent
  apply forall2_aupdate
  · apply forall2_aupdate
    · exact forall2_ensureKey (forall2_ensureKey h s.1) s.2
    · intro ns cd hrel
      exact entryRel_set _ _ _ hrel _ (get_direction_index_toNat_lt s.1 s.2) _ h2
  · intro ns cd hrel
    exact entryRel_set _ _ _ hrel _ (get_direction_index_toNat_lt s.2 s.1) _ h1

theorem graphsConsistent_foldl : ∀ (segs : List (Pt × Pt)) (g : PreGraphs),
    (∀ s ∈ segs, s.1 ≠ sentinel ∧ s.2 ≠ sentinel) → GraphsConsistent g →
      GraphsConsistent (segs.foldl process_segment g)
  | [], _, _, hg => hg
  | s :: rest, g, hs, hg =>
    graphsConsistent_foldl rest _ (fun x hx => hs x (List.mem_cons_of_mem _ hx))
      (graphsConsistent_process g s hg (hs s (List.mem_cons_self _ _)).1
        (hs s (List.mem_cons_self _ _)).2)

theorem graphsConsistent_build (segs : List (Pt × Pt))
    (hs : ∀ s ∈ segs, s.1 ≠ sentinel ∧ s.2 ≠ sentinel) :
    GraphsConsistent (build_pre segs) :=
  graphsConsistent_foldl segs ⟨[], []⟩ hs List.Forall₂.nil

/-- C4 counterexample: on the segment list `[((-1,-1), (0,0))]` — the
endpoint `(-1,-1)` collides with the in-band sentinel — the vertex `(0,0)`
ends with connectivity code `1000` (one `'1'` character) while its
adjacency record holds no non-sentinel entry at all (its Up slot stores the
neighbour `(-1,-1)`, indistinguishable from "no neighbour"), so the claimed
round-trip count equality fails. -/
theorem connectivity_code_inconsistent :
    alookup (build_pre [((-1, -1), (0, 0))]).code (0, 0) =
        some [true, false, false, false] ∧
      alookup (build_pre [((-1, -1), (0, 0))]).coord (0, 0) =
        some [sentinel, sentinel, sentinel, sentinel] ∧
      [true, false, false, false].countP id ≠
        [sentinel, sentinel, sentinel, sentinel].countP fun n => decide (n ≠ sentinel) := by
  refine ⟨by decide, by decide, by decide⟩

/-- C4 amended: after the adjacency build processes any sequence of
segments **none of whose endpoints equals the sentinel value `(-1,-1)`**
(including tolerated slot overwrites), every vertex satisfies: character
`i` of its connectivity code is `'1'` iff slot `i` of its adjacency record
holds a non-sentinel neighbour, and hence the number of `'1'` characters
equals the number of non-sentinel entries.  (A vertex at `(-1,-1)` itself
is stored indistinguishably from the sentinel and breaks the
correspondence; see the counterexample.) -/
theorem connectivity_code_consistent (segs : List (Pt × Pt))
    (hs : ∀ s ∈ segs, s.1 ≠ sentinel ∧ s.2 ≠ sentinel) (p : Pt) (ns : List Pt)
    (c : List Bool) (hns : alookup (build_pre segs).coord p = some ns)
    (hc : alookup (build_pre segs).code p = some c) :
    (∀ i, i < 4 → (c.getD i false = true ↔ ns.getD i sentinel ≠ sentinel)) ∧
      c.countP id = ns.countP fun n => decide (n ≠ sentinel) := by
  have hcons := graphsConsistent_build segs hs
  have hmatch := forall2_alookup hcons p
  rw [hns, hc] at hmatch
  obtain ⟨-, hln, hlc, hiff⟩ := hmatch
  refine ⟨hiff, ?_⟩
  obtain ⟨n0, n1, n2, n3, rfl⟩ := exists_four ns hln
  obtain ⟨b0, b1, b2, b3, rfl⟩ := exists_four c hlc
  have h0 := hiff 0 (by omega)
  have h1 := hiff 1 (by omega)
  have h2 := hiff 2 (by omega)
  have h3 := hiff 3 (by omega)
  simp only [List.getD, List.get?, Option.getD] at h0 h1 h2 h3
  have e0 : decide (n0 ≠ sentinel) = b0 := by rcases b0 with _ | _ <;> simp_all
  have e1 : decide (n1 ≠ sentinel) = b1 := by rcases b1 with _ | _ <;> simp_all
  have e2 : decide (n2 ≠ sentinel) = b2 := by rcases b2 with _ | _ <;> simp_all
  have e3 : decide (n3 ≠ sentinel) = b3 := by rcases b3 with _ | _ <;> simp_all
  simp only [List.countP_cons, List.countP_nil, id]
  by_cases hn0 : n0 = sentinel <;> by_cases hn1 : n1 = sentinel <;>
    by_cases hn2 : n2 = sentinel <;> by_cases hn3 : n3 = sentinel <;>
    simp_all

/-- Witness for C4 amended on the sentinel-free segment `((0,0), (1,0))`
at vertex `(0,0)` (code `0001`, one Right neighbour `(1,0)`). -/
theorem connectivity_code_consistent_witness :
    (∀ i, i < 4 →
      (([false, false, false, true] : List Bool).getD i false = true ↔
        ([sentinel, sentinel, sentinel, ((1 : ℤ), (0 : ℤ))] : List Pt).getD i sentinel ≠
          sentinel)) ∧
      ([false, false, false, true] : List Bool).countP id =
        ([sentinel, sentinel, sentinel, ((1 : ℤ), (0 : ℤ))] : List Pt).countP
          fun n => decide (n ≠ sentinel) :=
  connectivity_code_consistent [((0, 0), (1, 0))] (by decide) (0, 0)
    [sentinel, sentinel, sentinel, (1, 0)] [false, false, false, true]
    (by decide) (by decide)

/-! ## Canonical origin selection (C8) -/

theorem pickClosest_spec (v : Pt) (vs : List Pt) :
    ∃ l1 l2, v :: vs = l1 ++ pickClosest v vs :: l2 ∧
      (∀ x ∈ l1, distSq (pickClosest v vs) < distSq x) ∧
      ∀ x ∈ v :: vs, distSq (pickClosest v vs) ≤ distSq x := by
  induction vs generalizing v with
  | nil =>
    refine ⟨[], [], rfl, by simp, ?_⟩
    intro x hx
    rcases List.mem_cons.mp hx with rfl | hx'
    · exact le_refl _
    · cases hx'
  | cons w ws ih =>
    have hstep : pickClosest v (w :: ws) =
        pickClosest (if distSq w < distSq v then w else v) ws := rfl
    by_cases hw : distSq w < distSq v
    · rw [hstep, if_pos hw]
      obtain ⟨l1, l2, hdec, hstrict, hle⟩ := ih w
      refine ⟨v :: l1, l2, by rw [List.cons_append, ← hdec], ?_, ?_⟩
      · intro x hx
        rcases List.mem_cons.mp hx with rfl | hx'
        · exact lt_of_le_of_lt (hle w (List.mem_cons_self _ _)) hw
        · exact hstrict x hx'
      · intro x hx
        rcases List.mem_cons.mp hx with rfl | hx'
        · exact le_of_lt (lt_of_le_of_lt (hle w (List.mem_cons_self _ _)) hw)
        · exact hle x hx'
    · rw [hstep, if_neg hw]
      obtain ⟨l1, l2, hdec, hstrict, hle⟩ := ih v
      have hvw : distSq v ≤ distSq w := le_of_not_lt hw
      rcases l1 with _ | ⟨c, l1'⟩
      · simp only [List.nil_append, List.cons.injEq] at hdec
        obtain ⟨hrv, hl2⟩ := hdec
        refine ⟨[], w :: ws, by rw [List.nil_append, ← hrv], by simp, ?_⟩
        intro x hx
        have heq : distSq (pickClosest v ws) = distSq v := (congrArg distSq hrv).symm
        rcases List.mem_cons.mp hx with rfl | hx'
        · exact le_of_eq heq
        · rcases List.mem_cons.mp hx' with rfl | hx''
          · exact (le_of_eq heq).trans hvw
          · exact hle x (List.mem_cons_of_mem _ hx'')
      · simp only [List.cons_append, List.cons.injEq] at hdec
        obtain ⟨hcv, hws⟩ := hdec
        subst hcv
        refine ⟨v :: w :: l1', l2, ?_, ?_, ?_⟩
        · rw [List.cons_append, List.cons_append, ← hws]
        · intro x hx
          rcases List.mem_cons.mp hx with rfl | hx'
          · exact hstrict x (List.mem_cons_self _ _)
          · rcases List.mem_cons.mp hx' with rfl | hx''
            · exact lt_of_lt_of_le (hstrict v (List.mem_cons_self _ _)) hvw
            · exact hstrict x (List.mem_cons_of_mem _ hx'')
        · intro x hx
          rcases List.mem_cons.mp hx with rfl | hx'
          · exact hle x (List.mem_cons_self _ _)
          · rcases List.mem_cons.mp hx' with rfl | hx''
            · exact le_trans (hle v (List.mem_cons_self _ _)) hvw
            · exact hle x (List.mem_cons_of_mem _ hx'')


/-- `np.hypot p.1 p.2`: the Euclidean distance of a vertex to `(0, 0)`. -/
noncomputable def eudist (p : Pt) : ℝ := Real.sqrt ((p.1 : ℝ) ^ 2 + (p.2 : ℝ) ^ 2)

theorem distSq_cast (p : Pt) : ((distSq p : ℤ) : ℝ) = (p.1 : ℝ) ^ 2 + (p.2 : ℝ) ^ 2 := by
  unfold distSq
  push_cast
  ring

theorem sq_sum_nonneg (p : Pt) : (0 : ℝ) ≤ (p.1 : ℝ) ^ 2 + (p.2 : ℝ) ^ 2 :=
  add_nonneg (sq_nonneg _) (sq_nonneg _)

/-- Comparing by `np.hypot` is comparing by the squared distance. -/
theorem eudist_lt_iff (p q : Pt) : eudist p < eudist q ↔ distSq p < distSq q := by
  unfold eudist
  rw [Real.sqrt_lt_sqrt_iff (sq_sum_nonneg p), ← distSq_cast, ← distSq_cast, Int.cast_lt]

theorem eudist_le_iff (p q : Pt) : eudist p ≤ eudist q ↔ distSq p ≤ distSq q := by
  unfold eudist
  rw [Real.sqrt_le_sqrt_iff (sq_sum_nonneg q), ← distSq_cast, ← distSq_cast, Int.cast_le]

theorem ensureKey_ne_nil {α : Type} (l : List (Pt × α)) (k : Pt) (d : α) :
    ensureKey l k d ≠ [] := by
  unfold ensureKey
  rcases h : alookup l k with _ | v
  · simp
  · intro hc
    subst hc
    simp [alookup] at h

theorem aupdate_ne_nil {α : Type} (l : List (Pt × α)) (k : Pt) (f : α → α) (h : l ≠ []) :
    aupdate l k f ≠ [] := by
  intro hc
  apply h
  have hk := keysOf_aupdate l k f
  rw [hc] at hk
  simpa [keysOf] using hk.symm

theorem process_segment_coord_ne_nil (g : PreGraphs) (s : Pt × Pt) :
    (process_segment g s).coord ≠ [] := by
  unfold process_segment
  exact aupdate_ne_nil _ _ _ (aupdate_ne_nil _ _ _ (ensureKey_ne_nil _ _ _))

theorem foldl_coord_ne_nil : ∀ (segs : List (Pt × Pt)) (g : PreGraphs), g.coord ≠ [] →
    (segs.foldl process_segment g).coord ≠ []
  | [], _, h => h
  | s :: rest, g, _ =>
    foldl_coord_ne_nil rest (process_segment g s) (process_segment_coord_ne_nil g s)

theorem build_pre_coord_ne_nil (segs : List (Pt × Pt)) (hne : segs ≠ []) :
    (build_pre segs).coord ≠ [] := by
  rcases segs with _ | ⟨s, rest⟩
  · exact absurd rfl hne
  · exact foldl_coord_ne_nil rest _ (process_segment_coord_ne_nil ⟨[], []⟩ s)

/-- C8: for every non-empty segment list the canonical origin chosen as BFS
root is a vertex of minimal Euclidean distance to `(0,0)`, and among the
vertices attaining the minimum it is the **first** in insertion order (the
order in which vertices are first encountered while inserting segment
endpoints): every vertex listed before it has strictly greater distance. -/
theorem canonical_origin_first_min (segs : List (Pt × Pt)) (hne : segs ≠ []) :
    ∃ o l1 l2, originOf segs = some o ∧
      valid_points (build_pre segs) = l1 ++ o :: l2 ∧
      (∀ v ∈ l1, eudist o < eudist v) ∧
      ∀ v ∈ valid_points (build_pre segs), eudist o ≤ eudist v := by
  have hvne : valid_points (build_pre segs) ≠ [] := by
    unfold valid_points keysOf
    simpa using build_pre_coord_ne_nil segs hne
  unfold originOf
  rcases hv : valid_points (build_pre segs) with _ | ⟨v, vs⟩
  · exact absurd hv hvne
  · obtain ⟨l1, l2, hdec, hstrict, hle⟩ := pickClosest_spec v vs
    refine ⟨pickClosest v vs, l1, l2, rfl, hdec, ?_, ?_⟩
    · intro x hx
      exact (eudist_lt_iff _ _).mpr (hstrict x hx)
    · intro x hx
      exact (eudist_le_iff _ _).mpr (hle x hx)

/-- Witness for C8 on the two-segment input
`[((3,4), (0,2)), ((0,2), (3,4))]` (vertices inserted in order `(3,4)`,
`(0,2)`; the second vertex is the closer one). -/
theorem canonical_origin_first_min_witness :
    ∃ o l1 l2, originOf [((3, 4), (0, 2)), ((0, 2), (3, 4))] = some o ∧
      valid_points (build_pre [((3, 4), (0, 2)), ((0, 2), (3, 4))]) = l1 ++ o :: l2 ∧
      (∀ v ∈ l1, eudist o < eudist v) ∧
      ∀ v ∈ valid_points (build_pre [((3, 4), (0, 2)), ((0, 2), (3, 4))]),
        eudist o ≤ eudist v :=
  canonical_origin_first_min [((3, 4), (0, 2)), ((0, 2), (3, 4))] (by decide)


/-! ## Annotation generation (C9) -/

theorem get_edge_code_isSome (v : List Bool) (h : v.length = 4) :
    ∃ n, get_edge_code v = some n := by
  obtain ⟨a, b, c, d, rfl⟩ := exists_four v h
  rcases a with _ | _ <;> rcases b with _ | _ <;> rcases c with _ | _ <;>
    rcases d with _ | _ <;> exact ⟨_, rfl⟩

theorem drawLabel_mem (picks : ℕ → Fin 8) (k : ℕ) :
    drawLabel picks k ∈ semanticVocabulary := List.get_mem _ _ _

/-- The expected id sequence `c, c+1, ..., c+n-1`. -/
def idRange (c : ℤ) : ℕ → List ℤ
  | 0 => []
  | n + 1 => c :: idRange (c + 1) n

theorem idRange_length : ∀ (n : ℕ) (c : ℤ), (idRange c n).length = n
  | 0, _ => rfl
  | n + 1, c => by simp [idRange, idRange_length n (c + 1)]

theorem idRange_get : ∀ (n : ℕ) (c : ℤ) (j : ℕ) (h : j < (idRange c n).length),
    (idRange c n).get ⟨j, h⟩ = c + (j : ℤ)
  | 0, _, j, h => by simp [idRange] at h
  | n + 1, c, 0, h => by simp [idRange]
  | n + 1, c, j + 1, h => by
    have ih := idRange_get n (c + 1) j (by simpa [idRange] using h)
    simp only [idRange, List.get_cons_succ, ih]
    push_cast
    ring

/-- Core induction for `create_annotations` over a code graph whose keys
are all vertex keys: one record per entry in insertion order, consecutive
ids starting at the caller's counter, final counter advanced by the number
of records, four vocabulary labels per record. -/
theorem create_annotations_mapped (image_id category_id : ℤ) (picks : ℕ → Fin 8) :
    ∀ (g : List (Pt × List Bool)), (∀ e ∈ g, e.2.length = 4) → ∀ (c : ℤ) (k : ℕ),
    ∃ recs final,
      create_annotations image_id category_id picks
          (g.map fun e => (PKey.pt e.1, e.2)) c k = some (recs, final) ∧
      recs.map Annotation.id = idRange c g.length ∧
      recs.map Annotation.point = g.map Prod.fst ∧
      final = c + g.length ∧
      ∀ r ∈ recs, r.semantic.length = 4 ∧ ∀ s ∈ r.semantic, s ∈ semanticVocabulary := by
  intro g
  induction g with
  | nil =>
    intro _ c k
    exact ⟨[], c, rfl, by simp [idRange], by simp, by simp, by simp⟩
  | cons e rest ih =>
    intro hlen c k
    obtain ⟨p, v⟩ := e
    obtain ⟨n, hn⟩ := get_edge_code_isSome v (hlen (p, v) (List.mem_cons_self _ _))
    obtain ⟨recs, final, hrec, hids, hpts, hfin, hsem⟩ :=
      ih (fun x hx => hlen x (List.mem_cons_of_mem _ hx)) (c + 1) (k + 4)
    refine ⟨⟨image_id, category_id, c, p, n,
      [drawLabel picks k, drawLabel picks (k + 1), drawLabel picks (k + 2),
        drawLabel picks (k + 3)]⟩ :: recs, final, ?_, ?_, ?_, ?_, ?_⟩
    · simp only [List.map_cons, create_annotations, hn, hrec]
    · simp only [List.map_cons, List.length_cons, idRange, hids]
    · simp only [List.map_cons, hpts]
    · rw [hfin]
      simp only [List.length_cons]
      push_cast
      ring
    · intro r hr
      rcases List.mem_cons.mp hr with rfl | hr'
      · refine ⟨rfl, ?_⟩
        intro s hs
        simp only [List.mem_cons] at hs
        rcases hs with rfl | rfl | rfl | rfl | h0
        · exact drawLabel_mem picks k
        · exact drawLabel_mem picks (k + 1)
        · exact drawLabel_mem picks (k + 2)
        · exact drawLabel_mem picks (k + 3)
        · cases h0
      · exact hsem r hr'

/-- C9: annotation generation over a code graph with `n` vertex entries,
given a caller-supplied starting counter `c`, emits exactly one record per
vertex in insertion order of the code graph, with strictly increasing ids
`c, c+1, ..., c+n-1` (record `j` has id `c + j`), and returns the updated
counter `c + n`; each record's semantic field is a list of 4 labels each
drawn from the fixed 8-word vocabulary. -/
theorem create_annotations_spec (g : List (Pt × List Bool))
    (hlen : ∀ e ∈ g, e.2.length = 4) (image_id category_id : ℤ) (picks : ℕ → Fin 8)
    (c : ℤ) (k : ℕ) :
    ∃ recs final,
      create_annotations image_id category_id picks
          (g.map fun e => (PKey.pt e.1, e.2)) c k = some (recs, final) ∧
      recs.length = g.length ∧
      (∀ (j : ℕ) (h : j < recs.length), (recs.get ⟨j, h⟩).id = c + (j : ℤ)) ∧
      recs.map Annotation.point = g.map Prod.fst ∧
      final = c + g.length ∧
      ∀ r ∈ recs, r.semantic.length = 4 ∧ ∀ s ∈ r.semantic, s ∈ semanticVocabulary := by
  obtain ⟨recs, final, h1, h2, h3, h4, h5⟩ :=
    create_annotations_mapped image_id category_id picks g hlen c k
  have hlen2 : recs.length = g.length := by
    have h := congrArg List.length h2
    rwa [List.length_map, idRange_length] at h
  refine ⟨recs, final, h1, hlen2, ?_, h3, h4, h5⟩
  intro j hj
  have hj2 : j < (idRange c g.length).length := by
    rw [idRange_length]
    omega
  have hget := idRange_get g.length c j hj2
  have hq := congrArg (fun l : List ℤ => l[j]?) h2
  simp only [List.getElem?_map] at hq
  rw [List.getElem?_eq_getElem hj2, List.getElem?_eq_getElem hj] at hq
  simp only [Option.map_some', Option.some.injEq] at hq
  rw [List.get_eq_getElem] at hget ⊢
  rw [hq, hget]

/-- Witness for C9: a 3-vertex code graph processed from counter 5 yields
records with ids `5 + j` for `j < 3` and returns counter `8 = 5 + 3`. -/
theorem create_annotations_spec_witness :
    ∃ recs final,
      create_annotations 0 0 (fun _ => (0 : Fin 8))
          (([((0, 0), [false, false, false, true]),
             ((1, 0), [false, true, false, true]),
             ((2, 0), [false, true, false, false])] :
            List (Pt × List Bool)).map fun e => (PKey.pt e.1, e.2)) 5 0
        = some (recs, final) ∧
      recs.length =
        ([((0, 0), [false, false, false, true]),
          ((1, 0), [false, true, false, true]),
          ((2, 0), [false, true, false, false])] :
          List (Pt × List Bool)).length ∧
      (∀ (j : ℕ) (h : j < recs.length), (recs.get ⟨j, h⟩).id = 5 + (j : ℤ)) ∧
      recs.map Annotation.point =
        ([((0, 0), [false, false, false, true]),
          ((1, 0), [false, true, false, true]),
          ((2, 0), [false, true, false, false])] :
          List (Pt × List Bool)).map Prod.fst ∧
      final = 5 +
        (([((0, 0), [false, false, false, true]),
           ((1, 0), [false, true, false, true]),
           ((2, 0), [false, true, false, false])] :
          List (Pt × List Bool)).length : ℕ) ∧
      ∀ r ∈ recs, r.semantic.length = 4 ∧ ∀ s ∈ r.semantic, s ∈ semanticVocabulary :=
  create_annotations_spec
    [((0, 0), [false, false, false, true]),
     ((1, 0), [false, true, false, true]),
     ((2, 0), [false, true, false, false])] (by decide) 0 0 (fun _ => (0 : Fin 8)) 5 0



/-! ## BFS leveling (C2): reachability spec and invariant -/

/-- Spec-side reachability: `p` is reachable from `o` in exactly `n` hops
along non-sentinel adjacency entries. -/
inductive Reaches (adj : Pt → List Pt) (o : Pt) : Pt → ℕ → Prop where
  | refl : Reaches adj o o 0
  | step {p q : Pt} {n : ℕ} : Reaches adj o p n → q ∈ adj p → q ≠ sentinel →
      Reaches adj o q (n + 1)

/-- `l` is the shortest-hop distance from `o` to `p` in the graph `adj`. -/
def IsDist (adj : Pt → List Pt) (o p : Pt) (l : ℕ) : Prop :=
  Reaches adj o p l ∧ ∀ m, Reaches adj o p m → l ≤ m

theorem reaches_zero {adj : Pt → List Pt} {o p : Pt} (h : Reaches adj o p 0) : p = o := by
  cases h
  rfl

theorem exists_isDist {adj : Pt → List Pt} {o p : Pt} {n : ℕ} (h : Reaches adj o p n) :
    ∃ m, IsDist adj o p m := by
  classical
  have hex : ∃ m, Reaches adj o p m := ⟨n, h⟩
  exact ⟨Nat.find hex, Nat.find_spec hex, fun m hm => Nat.find_min' hex hm⟩

theorem isDist_unique {adj : Pt → List Pt} {o p : Pt} {l l' : ℕ}
    (h : IsDist adj o p l) (h' : IsDist adj o p l') : l = l' :=
  le_antisymm (h.2 l' h'.1) (h'.2 l h.1)

theorem isDist_zero {adj : Pt → List Pt} {o : Pt} : IsDist adj o o 0 :=
  ⟨Reaches.refl, fun m _ => Nat.zero_le m⟩

theorem isDist_zero_eq {adj : Pt → List Pt} {o p : Pt} (h : IsDist adj o p 0) : p = o :=
  reaches_zero h.1

theorem isDist_succ_pred {adj : Pt → List Pt} {o p : Pt} {m : ℕ}
    (h : IsDist adj o p (m + 1)) :
    ∃ q, IsDist adj o q m ∧ p ∈ adj q ∧ p ≠ sentinel := by
  obtain ⟨hr, hmin⟩ := h
  cases hr with
  | step hq hmem hns =>
    rename_i q
    obtain ⟨m', hd⟩ := exists_isDist hq
    have h1 : Reaches adj o p (m' + 1) := Reaches.step hd.1 hmem hns
    have h2 : m + 1 ≤ m' + 1 := hmin _ h1
    have h3 : m' ≤ m := hd.2 _ hq
    have h4 : m' = m := by omega
    exact ⟨q, h4 ▸ hd, hmem, hns⟩

/-- From the local facts available when the BFS queue empties: if every
vertex at distance at most `L` is visited and every processed edge leads to
a visited vertex, then every reachable vertex is visited. -/
theorem all_reachable_visited (adj : Pt → List Pt) (o : Pt) (vis : List Pt) (L : ℕ)
    (hlow : ∀ p m, IsDist adj o p m → m ≤ L → p ∈ vis)
    (hedge : ∀ q ∈ vis, ∀ m, IsDist adj o q m → ∀ p ∈ adj q, p ≠ sentinel → p ∈ vis) :
    ∀ m p, IsDist adj o p m → p ∈ vis := by
  intro m
  induction m using Nat.strong_induction_on with
  | _ m ih =>
    intro p hp
    by_cases hm : m ≤ L
    · exact hlow p m hp hm
    · obtain ⟨m', rfl⟩ : ∃ m', m = m' + 1 := ⟨m - 1, by omega⟩
      obtain ⟨q, hq, hmem, hns⟩ := isDist_succ_pred hp
      exact hedge q (ih m' (by omega) q hq) m' hq p hmem hns

theorem qtGet_qtAdd (qt : Qt) (l : ℕ) (p : Pt) (l' : ℕ) :
    qtGet (qtAdd qt l p) l' = if l' = l then qtGet qt l ++ [p] else qtGet qt l' := by
  unfold qtAdd qtGet
  rcases h : alookup qt l with _ | ps
  · rw [alookup_append]
    by_cases hl : l' = l
    · subst hl
      simp [h, alookup]
    · simp only [hl, if_false]
      rcases h2 : alookup qt l' with _ | v
      · simp [alookup, Ne.symm hl]
      · rfl
  · rw [alookup_aupdate]
    by_cases hl : l' = l
    · subst hl
      simp [h]
    · simp [hl]

/-- The BFS loop invariant, relative to the adjacency map `adj`, the vertex
key list `keys` and the origin `o`. -/
structure BfsInv (adj : Pt → List Pt) (keys : List Pt) (o : Pt)
    (queue : List (Pt × ℕ)) (vis : List Pt) (qt : Qt) : Prop where
  q_reach : ∀ e ∈ queue, Reaches adj o e.1 e.2
  q_keys : ∀ e ∈ queue, e.1 ∈ keys
  q_mono : List.Pairwise (fun a b : Pt × ℕ => a.2 ≤ b.2) queue
  q_span : ∀ a ∈ queue, ∀ b ∈ queue, a.2 ≤ b.2 + 1
  vis_qt : ∀ p, p ∈ vis ↔ ∃ l, p ∈ qtGet qt l
  qt_dist : ∀ p l, p ∈ qtGet qt l → IsDist adj o p l
  front_lo : ∀ a, queue.head? = some a → ∀ p m, IsDist adj o p m → m < a.2 → p ∈ vis
  front_eq : ∀ a, queue.head? = some a → ∀ p, IsDist adj o p a.2 →
    p ∈ vis ∨ (p, a.2) ∈ queue
  edges_done : ∀ q ∈ vis, ∀ m, IsDist adj o q m → ∀ p ∈ adj q, p ≠ sentinel →
    p ∈ vis ∨ (p, m + 1) ∈ queue
  done : queue = [] → ∀ p m, IsDist adj o p m → p ∈ vis

/-- Decreasing measure of the BFS loop. -/
def bfsMeasure (keys : List Pt) (vis : List Pt) (queue : List (Pt × ℕ)) : ℕ :=
  queue.length + 5 * keys.countP fun k => decide (k ∉ vis)

theorem countP_notin_mono (keys vis : List Pt) (p : Pt) :
    (keys.countP fun k => decide (k ∉ vis ++ [p])) ≤
      keys.countP fun k => decide (k ∉ vis) := by
  refine List.countP_mono_left ?_
  intro x _
  simp only [decide_eq_true_eq]
  intro h hc
  exact h (List.mem_append_left _ hc)

theorem countP_notin_strict (keys vis : List Pt) (p : Pt) (hk : p ∈ keys) (hp : p ∉ vis) :
    (keys.countP fun k => decide (k ∉ vis ++ [p])) + 1 ≤
      keys.countP fun k => decide (k ∉ vis) := by
  have ifF : (if (false : Bool) = true then (1 : ℕ) else 0) = 0 := rfl
  have ifT : (if (true : Bool) = true then (1 : ℕ) else 0) = 1 := rfl
  induction keys with
  | nil => cases hk
  | cons a t ih =>
    rw [List.countP_cons, List.countP_cons]
    by_cases hap : a = p
    · subst hap
      have h1 : (decide (a ∉ vis ++ [a]) : Bool) = false := by
        simp [List.mem_append]
      have h2 : (decide (a ∉ vis) : Bool) = true := by simpa using hp
      rw [h1, h2, ifF, ifT]
      have := countP_notin_mono t vis a
      omega
    · have hk' : p ∈ t := by
        rcases List.mem_cons.mp hk with h | h
        · exact absurd h.symm hap
        · exact h
      have hrec := ih hk'
      by_cases hb : a ∉ vis ++ [p]
      · have hb2 : a ∉ vis := fun hc => hb (List.mem_append_left _ hc)
        rw [decide_eq_true hb, decide_eq_true hb2, ifT]
        omega
      · have e1 : (decide (a ∉ vis ++ [p]) : Bool) = false := decide_eq_false hb
        have hav : a ∈ vis := by
          rcases List.mem_append.mp (not_not.mp hb) with h | h
          · exact h
          · exact absurd (List.mem_singleton.mp h) hap
        have e2 : (decide (a ∉ vis) : Bool) = false := by simp [hav]
        rw [e1, e2, ifF]
        omega


theorem bfsInv_stale {adj : Pt → List Pt} {keys : List Pt} {o p : Pt} {l : ℕ}
    {rest : List (Pt × ℕ)} {vis : List Pt} {qt : Qt}
    (inv : BfsInv adj keys o ((p, l) :: rest) vis qt) (hp : p ∈ vis) :
    BfsInv adj keys o rest vis qt := by
  have hmono := List.pairwise_cons.mp inv.q_mono
  refine ⟨?_, ?_, hmono.2, ?_, inv.vis_qt, inv.qt_dist, ?_, ?_, ?_, ?_⟩
  · exact fun e he => inv.q_reach e (List.mem_cons_of_mem _ he)
  · exact fun e he => inv.q_keys e (List.mem_cons_of_mem _ he)
  · exact fun a ha b hb =>
      inv.q_span a (List.mem_cons_of_mem _ ha) b (List.mem_cons_of_mem _ hb)
  · -- front_lo
    intro a ha p' m hm hlt
    obtain ⟨t, rfl⟩ := List.head?_eq_some_iff.mp ha
    have halev1 : l ≤ a.2 := hmono.1 a (List.mem_cons_self _ _)
    have halev2 : a.2 ≤ l + 1 :=
      inv.q_span a (List.mem_cons_of_mem _ (List.mem_cons_self _ _)) (p, l)
        (List.mem_cons_self _ _)
    rcases (show a.2 = l ∨ a.2 = l + 1 by omega) with he | he
    · exact inv.front_lo (p, l) rfl p' m hm (by omega)
    · by_cases hml : m < l
      · exact inv.front_lo (p, l) rfl p' m hm hml
      · have hmeq : m = l := by omega
        rw [hmeq] at hm
        rcases inv.front_eq (p, l) rfl p' hm with hv | hq
        · exact hv
        · rcases List.mem_cons.mp hq with heq | hq'
          · rw [(Prod.mk.injEq _ _ _ _).mp heq |>.1]
            exact hp
          · exfalso
            rcases List.mem_cons.mp hq' with heq2 | hq''
            · have : a.2 = l := by rw [← heq2]
              omega
            · have := (List.pairwise_cons.mp hmono.2).1 (p', l) hq''
              simp only at this
              omega
  · -- front_eq
    intro a ha p' hm
    obtain ⟨t, rfl⟩ := List.head?_eq_some_iff.mp ha
    have halev1 : l ≤ a.2 := hmono.1 a (List.mem_cons_self _ _)
    have halev2 : a.2 ≤ l + 1 :=
      inv.q_span a (List.mem_cons_of_mem _ (List.mem_cons_self _ _)) (p, l)
        (List.mem_cons_self _ _)
    rcases (show a.2 = l ∨ a.2 = l + 1 by omega) with he | he
    · rcases inv.front_eq (p, l) rfl p' (he ▸ hm) with hv | hq
      · exact Or.inl hv
      · rcases List.mem_cons.mp hq with heq | hq'
        · refine Or.inl ?_
          rw [(Prod.mk.injEq _ _ _ _).mp heq |>.1]
          exact hp
        · exact Or.inr (by rw [he]; exact hq')
    · -- new front at level l + 1
      rw [he] at hm
      obtain ⟨q, hq, hmem, hns⟩ := isDist_succ_pred hm
      have hqvis : q ∈ vis := by
        rcases inv.front_eq (p, l) rfl q hq with hv | hqq
        · exact hv
        · rcases List.mem_cons.mp hqq with heq | hq'
          · rw [(Prod.mk.injEq _ _ _ _).mp heq |>.1]
            exact hp
          · exfalso
            rcases List.mem_cons.mp hq' with heq2 | hq''
            · have : a.2 = l := by rw [← heq2]
              omega
            · have := (List.pairwise_cons.mp hmono.2).1 (q, l) hq''
              simp only at this
              omega
      rcases inv.edges_done q hqvis l hq p' hmem hns with hv | hqq
      · exact Or.inl hv
      · rcases List.mem_cons.mp hqq with heq | hq'
        · exfalso
          have : l + 1 = l := ((Prod.mk.injEq _ _ _ _).mp heq).2
          omega
        · exact Or.inr (by rw [he]; exact hq')
  · -- edges_done
    intro q hq m hm n hn hns
    rcases inv.edges_done q hq m hm n hn hns with hv | hqq
    · exact Or.inl hv
    · rcases List.mem_cons.mp hqq with heq | hq'
      · refine Or.inl ?_
        rw [(Prod.mk.injEq _ _ _ _).mp heq |>.1]
        exact hp
      · exact Or.inr hq'
  · -- done
    rintro rfl p' m hm
    refine all_reachable_visited adj o vis l ?_ ?_ m p' hm
    · intro p'' m' hd hle
      rcases Nat.lt_or_ge m' l with hlt | hge
      · exact inv.front_lo (p, l) rfl p'' m' hd hlt
      · have hmeq : m' = l := by omega
        rw [hmeq] at hd
        rcases inv.front_eq (p, l) rfl p'' hd with hv | hqq
        · exact hv
        · rcases List.mem_cons.mp hqq with heq | hq'
          · rw [(Prod.mk.injEq _ _ _ _).mp heq |>.1]
            exact hp
          · cases hq'
    · intro q hqv m' hd n hn hns
      rcases inv.edges_done q hqv m' hd n hn hns with hv | hqq
      · exact hv
      · rcases List.mem_cons.mp hqq with heq | hq'
        · rw [(Prod.mk.injEq _ _ _ _).mp heq |>.1]
          exact hp
        · cases hq'


theorem bfsInv_fresh {adj : Pt → List Pt} {keys : List Pt} {o p : Pt} {l : ℕ}
    {rest : List (Pt × ℕ)} {vis : List Pt} {qt : Qt}
    (hadjk : ∀ q n, n ∈ adj q → n ≠ sentinel → n ∈ keys)
    (inv : BfsInv adj keys o ((p, l) :: rest) vis qt) (hp : p ∉ vis) :
    BfsInv adj keys o
      (rest ++ ((adj p).filter fun n =>
        decide (n ≠ sentinel) && decide (n ∉ vis ++ [p])).map fun n => (n, l + 1))
      (vis ++ [p]) (qtAdd qt l p) := by
  have hmono := List.pairwise_cons.mp inv.q_mono
  have hre : Reaches adj o p l := inv.q_reach (p, l) (List.mem_cons_self _ _)
  have hfresh : IsDist adj o p l := by
    obtain ⟨m, hd⟩ := exists_isDist hre
    have hml : m ≤ l := hd.2 _ hre
    have hnm : ¬m < l := fun hc => hp (inv.front_lo (p, l) rfl p m hd hc)
    have hme : m = l := by omega
    rwa [hme] at hd
  have henq1 : ∀ e ∈ ((adj p).filter fun n =>
      decide (n ≠ sentinel) && decide (n ∉ vis ++ [p])).map (fun n => (n, l + 1)),
      e.1 ∈ adj p ∧ e.1 ≠ sentinel ∧ e.1 ∉ vis ++ [p] ∧ e.2 = l + 1 := by
    intro e he
    obtain ⟨n, hn, rfl⟩ := List.mem_map.mp he
    obtain ⟨hmem, hcond⟩ := List.mem_filter.mp hn
    rw [Bool.and_eq_true, decide_eq_true_eq, decide_eq_true_eq] at hcond
    exact ⟨hmem, hcond.1, hcond.2, rfl⟩
  have henq2 : ∀ n, n ∈ adj p → n ≠ sentinel → n ∉ vis ++ [p] →
      (n, l + 1) ∈ ((adj p).filter fun n =>
        decide (n ≠ sentinel) && decide (n ∉ vis ++ [p])).map (fun n => (n, l + 1)) := by
    intro n h1 h2 h3
    refine List.mem_map.mpr ⟨n, List.mem_filter.mpr ⟨h1, ?_⟩, rfl⟩
    rw [Bool.and_eq_true, decide_eq_true_eq, decide_eq_true_eq]
    exact ⟨h2, h3⟩
  have hvis' : ∀ x : Pt, x ∈ vis ++ [p] ↔ x ∈ vis ∨ x = p := by
    intro x
    rw [List.mem_append, List.mem_singleton]
  have hvq : ∀ x, x ∈ vis ++ [p] ↔ ∃ l', x ∈ qtGet (qtAdd qt l p) l' := by
    intro x
    rw [hvis']
    constructor
    · rintro (hx | rfl)
      · obtain ⟨l0, hl0⟩ := (inv.vis_qt x).mp hx
        refine ⟨l0, ?_⟩
        rw [qtGet_qtAdd]
        by_cases h : l0 = l
        · subst h
          rw [if_pos rfl]
          exact List.mem_append_left _ hl0
        · rw [if_neg h]
          exact hl0
      · refine ⟨l, ?_⟩
        rw [qtGet_qtAdd, if_pos rfl]
        exact List.mem_append_right _ (List.mem_singleton.mpr rfl)
    · rintro ⟨l', hl'⟩
      rw [qtGet_qtAdd] at hl'
      by_cases h : l' = l
      · rw [if_pos h] at hl'
        rcases List.mem_append.mp hl' with hx | hx
        · exact Or.inl ((inv.vis_qt x).mpr ⟨l, hx⟩)
        · exact Or.inr (List.mem_singleton.mp hx)
      · rw [if_neg h] at hl'
        exact Or.inl ((inv.vis_qt x).mpr ⟨l', hl'⟩)
  have hqd : ∀ x l', x ∈ qtGet (qtAdd qt l p) l' → IsDist adj o x l' := by
    intro x l' hl'
    rw [qtGet_qtAdd] at hl'
    by_cases h : l' = l
    · subst h
      rw [if_pos rfl] at hl'
      rcases List.mem_append.mp hl' with hx | hx
      · exact inv.qt_dist x l' hx
      · rw [List.mem_singleton.mp hx]
        exact hfresh
    · rw [if_neg h] at hl'
      exact inv.qt_dist x l' hl'
  have hed : ∀ q, q ∈ vis ++ [p] → ∀ m, IsDist adj o q m → ∀ n ∈ adj q, n ≠ sentinel →
      n ∈ vis ++ [p] ∨ (n, m + 1) ∈ rest ++ ((adj p).filter fun n =>
        decide (n ≠ sentinel) && decide (n ∉ vis ++ [p])).map (fun n => (n, l + 1)) := by
    intro q hq m hm n hn hns
    rcases (hvis' q).mp hq with hqv | rfl
    · rcases inv.edges_done q hqv m hm n hn hns with hv | hqq
      · exact Or.inl (List.mem_append_left _ hv)
      · rcases List.mem_cons.mp hqq with heq | hq'
        · refine Or.inl ?_
          rw [(Prod.mk.injEq _ _ _ _).mp heq |>.1]
          exact List.mem_append_right _ (List.mem_singleton.mpr rfl)
        · exact Or.inr (List.mem_append_left _ hq')
    · have hm' : m = l := isDist_unique hm hfresh
      by_cases hnv : n ∈ vis ++ [q]
      · exact Or.inl hnv
      · refine Or.inr ?_
        rw [hm']
        exact List.mem_append_right _ (henq2 n hn hns hnv)
  refine ⟨?_, ?_, ?_, ?_, hvq, hqd, ?_, ?_, hed, ?_⟩
  · intro e he
    rcases List.mem_append.mp he with h | h
    · exact inv.q_reach e (List.mem_cons_of_mem _ h)
    · obtain ⟨h1, h2, h3, h4⟩ := henq1 e h
      rw [h4]
      exact Reaches.step hre h1 h2
  · intro e he
    rcases List.mem_append.mp he with h | h
    · exact inv.q_keys e (List.mem_cons_of_mem _ h)
    · obtain ⟨h1, h2, h3, h4⟩ := henq1 e h
      exact hadjk p e.1 h1 h2
  · refine List.pairwise_append.mpr ⟨hmono.2, ?_, ?_⟩
    · refine List.pairwise_of_forall_mem_list ?_
      intro a ha b hb
      have e1 : a.2 = l + 1 := (henq1 a ha).2.2.2
      have e2 : b.2 = l + 1 := (henq1 b hb).2.2.2
      omega
    · intro a ha b hb
      have e2 : b.2 = l + 1 := (henq1 b hb).2.2.2
      have hsp : a.2 ≤ l + 1 :=
        inv.q_span a (List.mem_cons_of_mem _ ha) (p, l) (List.mem_cons_self _ _)
      omega
  · intro a ha b hb
    rcases List.mem_append.mp ha with ha' | ha' <;> rcases List.mem_append.mp hb with hb' | hb'
    · exact inv.q_span a (List.mem_cons_of_mem _ ha') b (List.mem_cons_of_mem _ hb')
    · have e2 : b.2 = l + 1 := (henq1 b hb').2.2.2
      have hsp : a.2 ≤ l + 1 :=
        inv.q_span a (List.mem_cons_of_mem _ ha') (p, l) (List.mem_cons_self _ _)
      omega
    · have e1 : a.2 = l + 1 := (henq1 a ha').2.2.2
      have hlo : l ≤ b.2 := hmono.1 b hb'
      omega
    · have e1 : a.2 = l + 1 := (henq1 a ha').2.2.2
      have e2 : b.2 = l + 1 := (henq1 b hb').2.2.2
      omega
  · -- front_lo
    rcases rest with _ | ⟨r, t⟩
    · intro a ha p' m hm hlt
      obtain ⟨ys, hys⟩ := List.head?_eq_some_iff.mp ha
      rw [List.nil_append] at hys
      have hamem : a ∈ ((adj p).filter fun n =>
          decide (n ≠ sentinel) && decide (n ∉ vis ++ [p])).map (fun n => (n, l + 1)) := by
        rw [hys]
        exact List.mem_cons_self _ _
      have halev : a.2 = l + 1 := (henq1 a hamem).2.2.2
      rcases (show m < l ∨ m = l by omega) with hml | hml
      · exact List.mem_append_left _ (inv.front_lo (p, l) rfl p' m hm hml)
      · rw [hml] at hm
        rcases inv.front_eq (p, l) rfl p' hm with hv | hq
        · exact List.mem_append_left _ hv
        · rcases List.mem_cons.mp hq with heq | hq'
          · rw [(Prod.mk.injEq _ _ _ _).mp heq |>.1]
            exact List.mem_append_right _ (List.mem_singleton.mpr rfl)
          · cases hq'
    · intro a ha p' m hm hlt
      have haeq : a = r := by
        simp only [List.cons_append, List.head?_cons, Option.some.injEq] at ha
        exact ha.symm
      subst haeq
      have hlev1 : l ≤ a.2 := hmono.1 a (List.mem_cons_self _ _)
      have hlev2 : a.2 ≤ l + 1 :=
        inv.q_span a (List.mem_cons_of_mem _ (List.mem_cons_self _ _)) (p, l)
          (List.mem_cons_self _ _)
      rcases (show a.2 = l ∨ a.2 = l + 1 by omega) with he | he
      · exact List.mem_append_left _ (inv.front_lo (p, l) rfl p' m hm (by omega))
      · rcases (show m < l ∨ m = l by omega) with hml | hml
        · exact List.mem_append_left _ (inv.front_lo (p, l) rfl p' m hm hml)
        · rw [hml] at hm
          rcases inv.front_eq (p, l) rfl p' hm with hv | hq
          · exact List.mem_append_left _ hv
          · rcases List.mem_cons.mp hq with heq | hq'
            · rw [(Prod.mk.injEq _ _ _ _).mp heq |>.1]
              exact List.mem_append_right _ (List.mem_singleton.mpr rfl)
            · exfalso
              rcases List.mem_cons.mp hq' with heq2 | hq''
              · have : a.2 = l := by rw [← heq2]
                omega
              · have hx : a.2 ≤ l := by
                  have := (List.pairwise_cons.mp hmono.2).1 (p', l) hq''
                  exact this
                omega
  · -- front_eq
    rcases rest with _ | ⟨r, t⟩
    · intro a ha p' hm
      obtain ⟨ys, hys⟩ := List.head?_eq_some_iff.mp ha
      rw [List.nil_append] at hys
      have hamem : a ∈ ((adj p).filter fun n =>
          decide (n ≠ sentinel) && decide (n ∉ vis ++ [p])).map (fun n => (n, l + 1)) := by
        rw [hys]
        exact List.mem_cons_self _ _
      have halev : a.2 = l + 1 := (henq1 a hamem).2.2.2
      rw [halev] at hm ⊢
      obtain ⟨q, hq, hmem, hns⟩ := isDist_succ_pred hm
      have hqvis : q ∈ vis ++ [p] := by
        rcases inv.front_eq (p, l) rfl q hq with hv | hqq
        · exact List.mem_append_left _ hv
        · rcases List.mem_cons.mp hqq with heq | hq'
          · rw [(Prod.mk.injEq _ _ _ _).mp heq |>.1]
            exact List.mem_append_right _ (List.mem_singleton.mpr rfl)
          · cases hq'
      exact hed q hqvis l hq p' hmem hns
    · intro a ha p' hm
      have haeq : a = r := by
        simp only [List.cons_append, List.head?_cons, Option.some.injEq] at ha
        exact ha.symm
      subst haeq
      have hlev1 : l ≤ a.2 := hmono.1 a (List.mem_cons_self _ _)
      have hlev2 : a.2 ≤ l + 1 :=
        inv.q_span a (List.mem_cons_of_mem _ (List.mem_cons_self _ _)) (p, l)
          (List.mem_cons_self _ _)
      rcases (show a.2 = l ∨ a.2 = l + 1 by omega) with he | he
      · rw [he] at hm ⊢
        rcases inv.front_eq (p, l) rfl p' hm with hv | hq
        · exact Or.inl (List.mem_append_left _ hv)
        · rcases List.mem_cons.mp hq with heq | hq'
          · refine Or.inl ?_
            rw [(Prod.mk.injEq _ _ _ _).mp heq |>.1]
            exact List.mem_append_right _ (List.mem_singleton.mpr rfl)
          · exact Or.inr (List.mem_append_left _ hq')
      · rw [he] at hm ⊢
        obtain ⟨q, hq, hmem, hns⟩ := isDist_succ_pred hm
        have hqvis : q ∈ vis ++ [p] := by
          rcases inv.front_eq (p, l) rfl q hq with hv | hqq
          · exact List.mem_append_left _ hv
          · rcases List.mem_cons.mp hqq with heq | hq'
            · rw [(Prod.mk.injEq _ _ _ _).mp heq |>.1]
              exact List.mem_append_right _ (List.mem_singleton.mpr rfl)
            · exfalso
              rcases List.mem_cons.mp hq' with heq2 | hq''
              · have : a.2 = l := by rw [← heq2]
                omega
              · have hx : a.2 ≤ l := by
                  have := (List.pairwise_cons.mp hmono.2).1 (q, l) hq''
                  exact this
                omega
        exact hed q hqvis l hq p' hmem hns
  · -- done
    intro hq0 p' m hm
    have hrest : rest = [] := by
      rcases rest with _ | ⟨r, t⟩
      · rfl
      · exfalso
        rw [List.cons_append] at hq0
        cases hq0
    subst hrest
    rw [List.nil_append] at hq0
    refine all_reachable_visited adj o (vis ++ [p]) l ?_ ?_ m p' hm
    · intro p'' m' hd hle
      rcases (show m' < l ∨ m' = l by omega) with hml | hml
      · exact List.mem_append_left _ (inv.front_lo (p, l) rfl p'' m' hd hml)
      · rw [hml] at hd
        rcases inv.front_eq (p, l) rfl p'' hd with hv | hqq
        · exact List.mem_append_left _ hv
        · rcases List.mem_cons.mp hqq with heq | hq'
          · rw [(Prod.mk.injEq _ _ _ _).mp heq |>.1]
            exact List.mem_append_right _ (List.mem_singleton.mpr rfl)
          · cases hq'
    · intro q hqv m' hd n hn hns
      rcases hed q hqv m' hd n hn hns with hv | hqq
      · exact hv
      · rw [List.nil_append, hq0] at hqq
        cases hqq


theorem bfs_master {adj : Pt → List Pt} {keys : List Pt} {o : Pt}
    (hadjk : ∀ q n, n ∈ adj q → n ≠ sentinel → n ∈ keys)
    (hadjlen : ∀ q, (adj q).length ≤ 4) :
    ∀ (fuel : ℕ) (queue : List (Pt × ℕ)) (vis : List Pt) (qt : Qt),
      BfsInv adj keys o queue vis qt → bfsMeasure keys vis queue ≤ fuel →
      ∃ vis' res, bfs adj fuel queue vis qt = some res ∧ BfsInv adj keys o [] vis' res := by
  intro fuel
  induction fuel with
  | zero =>
    intro queue vis qt inv hmu
    rcases queue with _ | ⟨⟨p, l⟩, rest⟩
    · exact ⟨vis, qt, rfl, inv⟩
    · exfalso
      unfold bfsMeasure at hmu
      simp only [List.length_cons] at hmu
      omega
  | succ f ih =>
    intro queue vis qt inv hmu
    rcases queue with _ | ⟨⟨p, l⟩, rest⟩
    · exact ⟨vis, qt, rfl, inv⟩
    · by_cases hp : p ∈ vis
      · have inv' := bfsInv_stale inv hp
        have hmu' : bfsMeasure keys vis rest ≤ f := by
          unfold bfsMeasure at hmu ⊢
          simp only [List.length_cons] at hmu
          omega
        obtain ⟨vis', res, hb, hinv⟩ := ih rest vis qt inv' hmu'
        refine ⟨vis', res, ?_, hinv⟩
        simp only [bfs]
        rw [if_pos hp]
        exact hb
      · have inv' := bfsInv_fresh hadjk inv hp
        have hpk : p ∈ keys := inv.q_keys (p, l) (List.mem_cons_self _ _)
        have henqlen : (((adj p).filter fun n =>
            decide (n ≠ sentinel) && decide (n ∉ vis ++ [p])).map
              fun n => (n, l + 1)).length ≤ 4 := by
          rw [List.length_map]
          exact le_trans (List.length_filter_le _ _) (hadjlen p)
        have hcount := countP_notin_strict keys vis p hpk hp
        have hmu' : bfsMeasure keys (vis ++ [p])
            (rest ++ ((adj p).filter fun n =>
              decide (n ≠ sentinel) && decide (n ∉ vis ++ [p])).map
                fun n => (n, l + 1)) ≤ f := by
          unfold bfsMeasure at hmu ⊢
          rw [List.length_append]
          simp only [List.length_cons] at hmu
          omega
        obtain ⟨vis', res, hb, hinv⟩ := ih _ _ _ inv' hmu'
        refine ⟨vis', res, ?_, hinv⟩
        simp only [bfs]
        rw [if_neg hp]
        exact hb

theorem bfsInv_init {adj : Pt → List Pt} {keys : List Pt} {o : Pt} (ho : o ∈ keys) :
    BfsInv adj keys o [(o, 0)] [] [] := by
  refine ⟨?_, ?_, ?_, ?_, ?_, ?_, ?_, ?_, ?_, ?_⟩
  · intro e he
    rw [List.mem_singleton.mp he]
    exact Reaches.refl
  · intro e he
    rw [List.mem_singleton.mp he]
    exact ho
  · simp
  · intro a ha b hb
    rw [List.mem_singleton.mp ha, List.mem_singleton.mp hb]
    omega
  · intro x
    simp [qtGet, alookup]
  · intro x l hl
    simp [qtGet, alookup] at hl
  · intro a ha p m hm hlt
    exfalso
    have haeq : a = (o, 0) := (Option.some.inj ha).symm
    rw [haeq] at hlt
    simp only at hlt
    omega
  · intro a ha p hm
    have haeq : a = (o, 0) := (Option.some.inj ha).symm
    rw [haeq] at hm ⊢
    have := isDist_zero_eq hm
    subst this
    exact Or.inr (List.mem_singleton.mpr rfl)
  · intro q hq
    cases hq
  · intro h
    cases h

/-! Well-formedness of the built adjacency dictionary: every neighbour list
has length 4 and every non-sentinel neighbour value is itself a key. -/

theorem mem_ensureKey {κ α : Type} [DecidableEq κ] {l : List (κ × α)} {k : κ} {d : α}
    {e : κ × α} (he : e ∈ ensureKey l k d) : e ∈ l ∨ e = (k, d) := by
  unfold ensureKey at he
  rcases h : alookup l k with _ | v
  · rw [h] at he
    rcases List.mem_append.mp he with h1 | h1
    · exact Or.inl h1
    · exact Or.inr (List.mem_singleton.mp h1)
  · rw [h] at he
    exact Or.inl he

theorem mem_aupdate {κ α : Type} [DecidableEq κ] {l : List (κ × α)} {k : κ} {f : α → α}
    {e : κ × α} (he : e ∈ aupdate l k f) :
    e ∈ l ∨ ∃ v, alookup l k = some v ∧ e = (k, f v) := by
  induction l with
  | nil => cases he
  | cons e0 t ih =>
    obtain ⟨k0, v0⟩ := e0
    by_cases h : k0 = k
    · subst h
      simp only [aupdate, if_pos rfl] at he
      rcases List.mem_cons.mp he with heq | ht
      · exact Or.inr ⟨v0, by simp [alookup], heq⟩
      · exact Or.inl (List.mem_cons_of_mem _ ht)
    · simp only [aupdate, if_neg h] at he
      rcases List.mem_cons.mp he with heq | ht
      · exact Or.inl (heq ▸ List.mem_cons_self _ _)
      · rcases ih ht with h1 | ⟨v, hv, he'⟩
        · exact Or.inl (List.mem_cons_of_mem _ h1)
        · exact Or.inr ⟨v, by simp [alookup, h, hv], he'⟩

/-- Every neighbour list stored in the coordinate graph has length 4. -/
def NbrsLen4 (g : PreGraphs) : Prop := ∀ e ∈ g.coord, e.2.length = 4

theorem nbrsLen4_process (g : PreGraphs) (s : Pt × Pt) (h : NbrsLen4 g) :
    NbrsLen4 (process_segment g s) := by
  intro e he
  unfold process_segment at he
  simp only at he
  have P1 : ∀ e0 : Pt × List Pt, e0 ∈ ensureKey (ensureKey g.coord s.1
      init_neighbors_as_coordinates) s.2 init_neighbors_as_coordinates →
      e0.2.length = 4 := by
    intro e0 he0
    rcases mem_ensureKey he0 with h1 | h1
    · rcases mem_ensureKey h1 with h2 | h2
      · exact h e0 h2
      · rw [h2]
        rfl
    · rw [h1]
      rfl
  have P2 : ∀ e0 : Pt × List Pt, e0 ∈ aupdate (ensureKey (ensureKey g.coord s.1
      init_neighbors_as_coordinates) s.2 init_neighbors_as_coordinates) s.1
        (fun ns => ns.set (get_direction_index s.1 s.2).toNat s.2) →
      e0.2.length = 4 := by
    intro e0 he0
    rcases mem_aupdate he0 with h1 | ⟨v, hv, he'⟩
    · exact P1 e0 h1
    · rw [he']
      simp only [List.length_set]
      exact P1 (s.1, v) (alookup_mem _ _ _ hv)
  rcases mem_aupdate he with h1 | ⟨v, hv, he'⟩
  · exact P2 e h1
  · rw [he']
    simp only [List.length_set]
    exact P2 (s.2, v) (alookup_mem _ _ _ hv)

theorem nbrsLen4_build : ∀ (segs : List (Pt × Pt)) (g : PreGraphs), NbrsLen4 g →
    NbrsLen4 (segs.foldl process_segment g)
  | [], _, h => h
  | s :: rest, g, h => nbrsLen4_build rest _ (nbrsLen4_process g s h)

theorem nbrsLen4_build_pre (segs : List (Pt × Pt)) : NbrsLen4 (build_pre segs) :=
  nbrsLen4_build segs ⟨[], []⟩ (fun _ he => absurd he (List.not_mem_nil _))


theorem mem_keys_mono_ensureKey {α : Type} (l : List (Pt × α)) (k : Pt) (d : α) {x : Pt}
    (hx : x ∈ keysOf l) : x ∈ keysOf (ensureKey l k d) := by
  rcases keysOf_ensureKey l k d with h | h <;> rw [h]
  · exact hx
  · exact List.mem_append_left _ hx

theorem mem_keys_ensureKey_self {α : Type} (l : List (Pt × α)) (k : Pt) (d : α) :
    k ∈ keysOf (ensureKey l k d) := by
  rw [alookup_isSome_of_mem_keys, alookup_ensureKey, if_pos rfl]
  rfl

/-- Every non-sentinel neighbour value stored in the coordinate graph is
itself a key of the coordinate graph. -/
def NbrsInKeys (g : PreGraphs) : Prop :=
  ∀ e ∈ g.coord, ∀ n ∈ e.2, n ≠ sentinel → n ∈ keysOf g.coord

theorem nbrsInKeys_process (g : PreGraphs) (s : Pt × Pt) (h : NbrsInKeys g) :
    NbrsInKeys (process_segment g s) := by
  have hk1 : s.1 ∈ keysOf (ensureKey (ensureKey g.coord s.1 init_neighbors_as_coordinates)
      s.2 init_neighbors_as_coordinates) :=
    mem_keys_mono_ensureKey _ _ _ (mem_keys_ensureKey_self _ _ _)
  have hk2 : s.2 ∈ keysOf (ensureKey (ensureKey g.coord s.1 init_neighbors_as_coordinates)
      s.2 init_neighbors_as_coordinates) := mem_keys_ensureKey_self _ _ _
  have hlift : ∀ x : Pt, x ∈ keysOf g.coord →
      x ∈ keysOf (ensureKey (ensureKey g.coord s.1 init_neighbors_as_coordinates)
        s.2 init_neighbors_as_coordinates) :=
    fun x hx => mem_keys_mono_ensureKey _ _ _ (mem_keys_mono_ensureKey _ _ _ hx)
  have P1 : ∀ e ∈ ensureKey (ensureKey g.coord s.1 init_neighbors_as_coordinates) s.2
      init_neighbors_as_coordinates, ∀ n ∈ e.2, n ≠ sentinel →
      n ∈ keysOf (ensureKey (ensureKey g.coord s.1 init_neighbors_as_coordinates) s.2
        init_neighbors_as_coordinates) := by
    intro e he n hn hns
    rcases mem_ensureKey he with h1 | h1
    · rcases mem_ensureKey h1 with h2 | h2
      · exact hlift n (h e h2 n hn hns)
      · exfalso
        rw [h2] at hn
        simp only [init_neighbors_as_coordinates, List.mem_cons, List.mem_singleton] at hn
        rcases hn with rfl | rfl | rfl | rfl | hn
        · exact hns rfl
        · exact hns rfl
        · exact hns rfl
        · exact hns rfl
        · cases hn
    · exfalso
      rw [h1] at hn
      simp only [init_neighbors_as_coordinates, List.mem_cons, List.mem_singleton] at hn
      rcases hn with rfl | rfl | rfl | rfl | hn
      · exact hns rfl
      · exact hns rfl
      · exact hns rfl
      · exact hns rfl
      · cases hn
  have P2 : ∀ e ∈ aupdate (ensureKey (ensureKey g.coord s.1 init_neighbors_as_coordinates)
      s.2 init_neighbors_as_coordinates) s.1
        (fun ns => ns.set (get_direction_index s.1 s.2).toNat s.2),
      ∀ n ∈ e.2, n ≠ sentinel →
      n ∈ keysOf (ensureKey (ensureKey g.coord s.1 init_neighbors_as_coordinates) s.2
        init_neighbors_as_coordinates) := by
    intro e he n hn hns
    rcases mem_aupdate he with h1 | ⟨w, hw, he'⟩
    · exact P1 e h1 n hn hns
    · rw [he'] at hn
      rcases List.mem_or_eq_of_mem_set hn with h2 | h2
    -- n was already stored, or n is the new neighbour s.2
      · exact P1 (s.1, w) (alookup_mem _ _ _ hw) n h2 hns
      · rw [h2]
        exact hk2
  intro e he n hn hns
  unfold process_segment at he ⊢
  simp only at he ⊢
  rw [keysOf_aupdate, keysOf_aupdate]
  rcases mem_aupdate he with h1 | ⟨w, hw, he'⟩
  · exact P2 e h1 n hn hns
  · rw [he'] at hn
    rcases List.mem_or_eq_of_mem_set hn with h2 | h2
    · have hmem := alookup_mem _ _ _ hw
      rcases mem_aupdate hmem with h3 | ⟨w2, hw2, he2⟩
      · exact P1 (s.2, w) h3 n h2 hns
      · have : w = w2.set (get_direction_index s.1 s.2).toNat s.2 :=
          congrArg Prod.snd he2
        rw [this] at h2
        rcases List.mem_or_eq_of_mem_set h2 with h4 | h4
        · have hks : (s.2 : Pt) = s.1 := congrArg Prod.fst he2
          exact P1 (s.1, w2) (alookup_mem _ _ _ hw2) n (by exact h4) hns
        · rw [h4]
          exact hk2
    · rw [h2]
      exact hk1

theorem nbrsInKeys_build : ∀ (segs : List (Pt × Pt)) (g : PreGraphs), NbrsInKeys g →
    NbrsInKeys (segs.foldl process_segment g)
  | [], _, h => h
  | s :: rest, g, h => nbrsInKeys_build rest _ (nbrsInKeys_process g s h)

theorem nbrsInKeys_build_pre (segs : List (Pt × Pt)) : NbrsInKeys (build_pre segs) :=
  nbrsInKeys_build segs ⟨[], []⟩ (fun _ he => absurd he (List.not_mem_nil _))

theorem adjOf_len (g : PreGraphs) (h4 : NbrsLen4 g) (p : Pt) : (adjOf g p).length ≤ 4 := by
  unfold adjOf
  rcases h : alookup g.coord p with _ | ns
  · simp
  · have hlen : ns.length = 4 := h4 (p, ns) (alookup_mem _ _ _ h)
    simp only [Option.getD_some]
    omega

theorem adjOf_keys (g : PreGraphs) (hk : NbrsInKeys g) (p n : Pt) (hn : n ∈ adjOf g p)
    (hns : n ≠ sentinel) : n ∈ keysOf g.coord := by
  unfold adjOf at hn
  rcases h : alookup g.coord p with _ | ns
  · rw [h] at hn
    cases hn
  · rw [h] at hn
    exact hk (p, ns) (alookup_mem _ _ _ h) n hn hns


/-- Running `build_graphs` on a non-empty segment list succeeds: the origin
exists, the BFS terminates within its fuel bound, and the final BFS
invariant holds for the returned quatree. -/
theorem build_graphs_run (segs : List (Pt × Pt)) (hne : segs ≠ []) :
    ∃ v vs vis' res, valid_points (build_pre segs) = v :: vs ∧
      originOf segs = some (pickClosest v vs) ∧
      build_graphs segs = some
        (((build_pre segs).coord.map fun e => (PKey.pt e.1, CVal.nbrs e.2)) ++
          [(PKey.quatree, CVal.qt [res])],
         (build_pre segs).code.map fun e => (PKey.pt e.1, e.2), res) ∧
      BfsInv (adjOf (build_pre segs)) (keysOf (build_pre segs).coord)
        (pickClosest v vs) [] vis' res := by
  have hvne : valid_points (build_pre segs) ≠ [] := by
    unfold valid_points keysOf
    simpa using build_pre_coord_ne_nil segs hne
  rcases hv : valid_points (build_pre segs) with _ | ⟨v, vs⟩
  · exact absurd hv hvne
  have ho : pickClosest v vs ∈ keysOf (build_pre segs).coord := by
    obtain ⟨l1, l2, hdec, -, -⟩ := pickClosest_spec v vs
    have hm : pickClosest v vs ∈ v :: vs := by
      rw [hdec]
      exact List.mem_append_right _ (List.mem_cons_self _ _)
    have : valid_points (build_pre segs) = keysOf (build_pre segs).coord := rfl
    rw [← this, hv]
    exact hm
  have hadjk : ∀ q n, n ∈ adjOf (build_pre segs) q → n ≠ sentinel →
      n ∈ keysOf (build_pre segs).coord :=
    fun q n hn hns => adjOf_keys _ (nbrsInKeys_build_pre segs) q n hn hns
  have hadjlen : ∀ q, (adjOf (build_pre segs) q).length ≤ 4 :=
    fun q => adjOf_len _ (nbrsLen4_build_pre segs) q
  have hmu : bfsMeasure (keysOf (build_pre segs).coord) [] [(pickClosest v vs, 0)] ≤
      bfsFuel (build_pre segs) := by
    unfold bfsMeasure bfsFuel
    have := List.countP_le_length
      (p := fun k : Pt => decide (k ∉ ([] : List Pt))) (l := keysOf (build_pre segs).coord)
    simp only [List.length_cons, List.length_nil]
    omega
  obtain ⟨vis', res, hb, hinv⟩ := bfs_master hadjk hadjlen (bfsFuel (build_pre segs))
    [(pickClosest v vs, 0)] [] [] (bfsInv_init ho) hmu
  refine ⟨v, vs, vis', res, rfl, ?_, ?_, hinv⟩
  · simp only [originOf]
    split
    · rename_i heq
      rw [hv] at heq
      cases heq
    · rename_i v' vs' heq
      rw [hv] at heq
      injection heq with h1 h2
      subst h1
      subst h2
      rfl
  · simp only [build_graphs]
    split
    · rename_i heq
      rw [hv] at heq
      cases heq
    · rename_i v' vs' heq
      rw [hv] at heq
      injection heq with h1 h2
      subst h1
      subst h2
      split
      · rename_i hbn
        rw [hb] at hbn
        cases hbn
      · rename_i qres hbq
        rw [hb] at hbq
        injection hbq with h3
        subst h3
        rfl


/-- C2: BFS leveling rooted at the canonical origin assigns level 0 to the
origin; a vertex appears at level `l` of the quatree **iff** `l` is its
shortest-hop distance from the origin in the directional adjacency graph
(so each reachable vertex gets exactly one level, the first assignment
wins, and vertices unreachable from the origin are never added); and a
level is populated iff some reachable vertex has that exact distance, so
the maximum assigned level equals the eccentricity of the origin restricted
to its reachable component. -/
theorem bfs_leveling_correct (segs : List (Pt × Pt)) (hne : segs ≠ []) :
    ∃ o cg codeg qt, originOf segs = some o ∧ build_graphs segs = some (cg, codeg, qt) ∧
      o ∈ qtGet qt 0 ∧
      (∀ p l, p ∈ qtGet qt l ↔ IsDist (adjOf (build_pre segs)) o p l) ∧
      (∀ p l l', p ∈ qtGet qt l → p ∈ qtGet qt l' → l = l') ∧
      (∀ l, (∃ p, p ∈ qtGet qt l) ↔ ∃ p, IsDist (adjOf (build_pre segs)) o p l) := by
  obtain ⟨v, vs, vis', res, hv, hor, hbg, hinv⟩ := build_graphs_run segs hne
  have hmem : ∀ p l, p ∈ qtGet res l ↔
      IsDist (adjOf (build_pre segs)) (pickClosest v vs) p l := by
    intro p l
    constructor
    · exact hinv.qt_dist p l
    · intro hd
      have hvis : p ∈ vis' := hinv.done rfl p l hd
      obtain ⟨l0, hl0⟩ := (hinv.vis_qt p).mp hvis
      have hd0 := hinv.qt_dist p l0 hl0
      have : l0 = l := isDist_unique hd0 hd
      rw [← this]
      exact hl0
  refine ⟨pickClosest v vs, _, _, res, hor, hbg, ?_, hmem, ?_, ?_⟩
  · exact (hmem _ 0).mpr isDist_zero
  · intro p l l' h1 h2
    exact isDist_unique ((hmem p l).mp h1) ((hmem p l').mp h2)
  · intro l
    constructor
    · rintro ⟨p, hp⟩
      exact ⟨p, (hmem p l).mp hp⟩
    · rintro ⟨p, hp⟩
      exact ⟨p, (hmem p l).mpr hp⟩

/-- Witness for C2 on the single segment `((0,0), (1,0))`. -/
theorem bfs_leveling_correct_witness :
    ∃ o cg codeg qt, originOf [((0, 0), (1, 0))] = some o ∧
      build_graphs [((0, 0), (1, 0))] = some (cg, codeg, qt) ∧
      o ∈ qtGet qt 0 ∧
      (∀ p l, p ∈ qtGet qt l ↔ IsDist (adjOf (build_pre [((0, 0), (1, 0))])) o p l) ∧
      (∀ p l l', p ∈ qtGet qt l → p ∈ qtGet qt l' → l = l') ∧
      (∀ l, (∃ p, p ∈ qtGet qt l) ↔
        ∃ p, IsDist (adjOf (build_pre [((0, 0), (1, 0))])) o p l) :=
  bfs_leveling_correct [((0, 0), (1, 0))] (by decide)


/-! ## Key-set structure of the two graphs (C10) -/

theorem keysOf_ensureKey_eq {α : Type} (l : List (Pt × α)) (k : Pt) (d : α) :
    keysOf (ensureKey l k d) =
      if k ∈ keysOf l then keysOf l else keysOf l ++ [k] := by
  unfold ensureKey
  rcases h : alookup l k with _ | v
  · rw [if_neg]
    · simp [keysOf]
    · rw [alookup_isSome_of_mem_keys, h]
      simp
  · rw [if_pos]
    rw [alookup_isSome_of_mem_keys, h]
    rfl

theorem keys_eq_process (g : PreGraphs) (s : Pt × Pt)
    (h : keysOf g.coord = keysOf g.code) :
    keysOf (process_segment g s).coord = keysOf (process_segment g s).code := by
  unfold process_segment
  simp only [keysOf_aupdate]
  rw [keysOf_ensureKey_eq, keysOf_ensureKey_eq, keysOf_ensureKey_eq, keysOf_ensureKey_eq, h]

theorem keys_eq_build : ∀ (segs : List (Pt × Pt)) (g : PreGraphs),
    keysOf g.coord = keysOf g.code →
    keysOf (segs.foldl process_segment g).coord = keysOf (segs.foldl process_segment g).code
  | [], _, h => h
  | s :: rest, g, h => keys_eq_build rest _ (keys_eq_process g s h)

theorem keys_eq_build_pre (segs : List (Pt × Pt)) :
    keysOf (build_pre segs).coord = keysOf (build_pre segs).code :=
  keys_eq_build segs ⟨[], []⟩ rfl

theorem mem_keys_ensureKey_iff {α : Type} (l : List (Pt × α)) (k : Pt) (d : α) (x : Pt) :
    x ∈ keysOf (ensureKey l k d) ↔ x ∈ keysOf l ∨ x = k := by
  rw [keysOf_ensureKey_eq]
  by_cases h : k ∈ keysOf l
  · rw [if_pos h]
    constructor
    · exact Or.inl
    · rintro (hx | rfl)
      · exact hx
      · exact h
  · rw [if_neg h]
    rw [List.mem_append, List.mem_singleton]

theorem mem_keys_process_iff (g : PreGraphs) (s : Pt × Pt) (x : Pt) :
    x ∈ keysOf (process_segment g s).coord ↔
      x ∈ keysOf g.coord ∨ x = s.1 ∨ x = s.2 := by
  unfold process_segment
  simp only [keysOf_aupdate]
  rw [mem_keys_ensureKey_iff, mem_keys_ensureKey_iff]
  tauto

theorem mem_keys_foldl_iff : ∀ (segs : List (Pt × Pt)) (g : PreGraphs) (x : Pt),
    x ∈ keysOf (segs.foldl process_segment g).coord ↔
      x ∈ keysOf g.coord ∨ ∃ s ∈ segs, x = s.1 ∨ x = s.2
  | [], g, x => by simp
  | s :: rest, g, x => by
    rw [List.foldl_cons, mem_keys_foldl_iff rest _ x, mem_keys_process_iff]
    constructor
    · rintro ((h | h | h) | ⟨s', hs', h⟩)
      · exact Or.inl h
      · exact Or.inr ⟨s, List.mem_cons_self _ _, Or.inl h⟩
      · exact Or.inr ⟨s, List.mem_cons_self _ _, Or.inr h⟩
      · exact Or.inr ⟨s', List.mem_cons_of_mem _ hs', h⟩
    · rintro (h | ⟨s', hs', h⟩)
      · exact Or.inl (Or.inl h)
      · rcases List.mem_cons.mp hs' with rfl | hs''
        · rcases h with h | h
          · exact Or.inl (Or.inr (Or.inl h))
          · exact Or.inl (Or.inr (Or.inr h))
        · exact Or.inr ⟨s', hs'', h⟩

theorem mem_keys_build_pre (segs : List (Pt × Pt)) (x : Pt) :
    x ∈ valid_points (build_pre segs) ↔ ∃ s ∈ segs, x = s.1 ∨ x = s.2 := by
  unfold valid_points build_pre
  rw [mem_keys_foldl_iff]
  simp [keysOf]

theorem keys_nodup_ensureKey {α : Type} (l : List (Pt × α)) (k : Pt) (d : α)
    (h : (keysOf l).Nodup) : (keysOf (ensureKey l k d)).Nodup := by
  rw [keysOf_ensureKey_eq]
  by_cases hm : k ∈ keysOf l
  · rwa [if_pos hm]
  · rw [if_neg hm]
    refine List.Nodup.append h (List.nodup_singleton k) ?_
    intro a ha hb
    rw [List.mem_singleton.mp hb] at ha
    exact hm ha

theorem keys_nodup_process (g : PreGraphs) (s : Pt × Pt)
    (h : (keysOf g.coord).Nodup) : (keysOf (process_segment g s).coord).Nodup := by
  unfold process_segment
  simp only [keysOf_aupdate]
  exact keys_nodup_ensureKey _ _ _ (keys_nodup_ensureKey _ _ _ h)

theorem keys_nodup_build : ∀ (segs : List (Pt × Pt)) (g : PreGraphs),
    (keysOf g.coord).Nodup → (keysOf (segs.foldl process_segment g).coord).Nodup
  | [], _, h => h
  | s :: rest, g, h => keys_nodup_build rest _ (keys_nodup_process g s h)

theorem keys_nodup_build_pre (segs : List (Pt × Pt)) :
    (valid_points (build_pre segs)).Nodup :=
  keys_nodup_build segs ⟨[], []⟩ List.nodup_nil

/-- Every connectivity string stored in the code graph has length 4. -/
def CodeLen4 (g : PreGraphs) : Prop := ∀ e ∈ g.code, e.2.length = 4

theorem codeLen4_process (g : PreGraphs) (s : Pt × Pt) (h : CodeLen4 g) :
    CodeLen4 (process_segment g s) := by
  intro e he
  unfold process_segment at he
  simp only at he
  have P1 : ∀ e0 : Pt × List Bool, e0 ∈ ensureKey (ensureKey g.code s.1
      init_neighbors_as_code) s.2 init_neighbors_as_code → e0.2.length = 4 := by
    intro e0 he0
    rcases mem_ensureKey he0 with h1 | h1
    · rcases mem_ensureKey h1 with h2 | h2
      · exact h e0 h2
      · rw [h2]
        rfl
    · rw [h1]
      rfl
  have P2 : ∀ e0 : Pt × List Bool, e0 ∈ aupdate (ensureKey (ensureKey g.code s.1
      init_neighbors_as_code) s.2 init_neighbors_as_code) s.1
        (fun c => c.set (get_direction_index s.1 s.2).toNat true) →
      e0.2.length = 4 := by
    intro e0 he0
    rcases mem_aupdate he0 with h1 | ⟨v, hv, he'⟩
    · exact P1 e0 h1
    · rw [he']
      simp only [List.length_set]
      exact P1 (s.1, v) (alookup_mem _ _ _ hv)
  rcases mem_aupdate he with h1 | ⟨v, hv, he'⟩
  · exact P2 e h1
  · rw [he']
    simp only [List.length_set]
    exact P2 (s.2, v) (alookup_mem _ _ _ hv)

theorem codeLen4_build : ∀ (segs : List (Pt × Pt)) (g : PreGraphs), CodeLen4 g →
    CodeLen4 (segs.foldl process_segment g)
  | [], _, h => h
  | s :: rest, g, h => codeLen4_build rest _ (codeLen4_process g s h)

theorem codeLen4_build_pre (segs : List (Pt × Pt)) : CodeLen4 (build_pre segs) :=
  codeLen4_build segs ⟨[], []⟩ (fun _ he => absurd he (List.not_mem_nil _))

theorem alookup_pt_map_quatree {α β : Type} (l : List (Pt × α)) (f : Pt × α → β) :
    alookup (l.map fun e => (PKey.pt e.1, f e)) PKey.quatree = none := by
  induction l with
  | nil => rfl
  | cons e t ih =>
    simp only [List.map_cons, alookup]
    rw [if_neg (by simp)]
    exact ih

theorem codeGraphPoints_map (l : List (Pt × List Bool)) :
    codeGraphPoints (l.map fun e => (PKey.pt e.1, e.2)) = l.map Prod.fst := by
  induction l with
  | nil => rfl
  | cons e t ih =>
    simp only [List.map_cons, codeGraphPoints, List.filterMap_cons] at ih ⊢
    rw [ih]


/-- C10: after the graph build completes, the reserved `'quatree'` key is
present only in the coordinate graph — as its final entry, mapped to the
one-element list holding the LevelMap — and never in the code graph, whose
keys are exactly the distinct segment endpoints (in first-encounter order,
duplicate-free); consequently annotation generation emits one record per
genuine vertex only, and the bounding-box computation ranges only over the
vertex coordinates, the reserved entry never leaking into either output. -/
theorem quatree_key_separation (segs : List (Pt × Pt)) (hne : segs ≠ []) :
    ∃ cg codeg qt, build_graphs segs = some (cg, codeg, qt) ∧
      alookup cg PKey.quatree = some (CVal.qt [qt]) ∧
      cg.map Prod.fst = (valid_points (build_pre segs)).map PKey.pt ++ [PKey.quatree] ∧
      codeg.map Prod.fst = (valid_points (build_pre segs)).map PKey.pt ∧
      (∀ k ∈ codeg.map Prod.fst, k ≠ PKey.quatree) ∧
      codeGraphPoints codeg = valid_points (build_pre segs) ∧
      (valid_points (build_pre segs)).Nodup ∧
      (∀ x, x ∈ valid_points (build_pre segs) ↔ ∃ s ∈ segs, x = s.1 ∨ x = s.2) ∧
      (∀ (imId catId : ℤ) (picks : ℕ → Fin 8) (c : ℤ) (k : ℕ), ∃ recs fin,
        create_annotations imId catId picks codeg c k = some (recs, fin) ∧
        recs.map Annotation.point = valid_points (build_pre segs)) ∧
      create_structure_bbox (codeGraphPoints codeg) =
        create_structure_bbox (valid_points (build_pre segs)) := by
  obtain ⟨v, vs, vis', res, hv, hor, hbg, hinv⟩ := build_graphs_run segs hne
  have hkeyseq := keys_eq_build_pre segs
  have hpts : codeGraphPoints ((build_pre segs).code.map fun e => (PKey.pt e.1, e.2)) =
      valid_points (build_pre segs) := by
    rw [codeGraphPoints_map]
    exact hkeyseq.symm
  refine ⟨_, _, res, hbg, ?_, ?_, ?_, ?_, hpts, keys_nodup_build_pre segs,
    mem_keys_build_pre segs, ?_, ?_⟩
  · rw [alookup_append, alookup_pt_map_quatree]
    simp [alookup]
  · simp only [valid_points, keysOf]
    rw [List.map_append, List.map_map, List.map_map]
    rfl
  · simp only [valid_points, keysOf] at hkeyseq ⊢
    rw [hkeyseq, List.map_map, List.map_map]
    rfl
  · intro k hk
    rw [List.map_map] at hk
    obtain ⟨e, he, rfl⟩ := List.mem_map.mp hk
    simp
  · intro imId catId picks c k
    obtain ⟨recs, fin, h1, h2, h3, h4, h5⟩ := create_annotations_mapped imId catId picks
      (build_pre segs).code (fun e he => codeLen4_build_pre segs e he) c k
    refine ⟨recs, fin, h1, ?_⟩
    rw [h3]
    exact hkeyseq.symm
  · exact congrArg create_structure_bbox hpts

/-- Witness for C10 on the single segment `((0,0), (1,0))`. -/
theorem quatree_key_separation_witness :
    ∃ cg codeg qt, build_graphs [((0, 0), (1, 0))] = some (cg, codeg, qt) ∧
      alookup cg PKey.quatree = some (CVal.qt [qt]) ∧
      cg.map Prod.fst =
        (valid_points (build_pre [((0, 0), (1, 0))])).map PKey.pt ++ [PKey.quatree] ∧
      codeg.map Prod.fst = (valid_points (build_pre [((0, 0), (1, 0))])).map PKey.pt ∧
      (∀ k ∈ codeg.map Prod.fst, k ≠ PKey.quatree) ∧
      codeGraphPoints codeg = valid_points (build_pre [((0, 0), (1, 0))]) ∧
      (valid_points (build_pre [((0, 0), (1, 0))])).Nodup ∧
      (∀ x, x ∈ valid_points (build_pre [((0, 0), (1, 0))]) ↔
        ∃ s ∈ [((0, 0), (1, 0))], x = s.1 ∨ x = s.2) ∧
      (∀ (imId catId : ℤ) (picks : ℕ → Fin 8) (c : ℤ) (k : ℕ), ∃ recs fin,
        create_annotations imId catId picks codeg c k = some (recs, fin) ∧
        recs.map Annotation.point = valid_points (build_pre [((0, 0), (1, 0))])) ∧
      create_structure_bbox (codeGraphPoints codeg) =
        create_structure_bbox (valid_points (build_pre [((0, 0), (1, 0))])) :=
  quatree_key_separation [((0, 0), (1, 0))] (by decide)

end RasterToGraph
